import Mathlib

/-
Verification of the wrcc-wind-tool processing pipeline.

The definitions below are a shallow embedding of the station-level
quality-control and aggregation code found in src/pipeline/process_raw.py,
src/pipeline/preprocess.py, src/preprocess.py and src/luts.py.  Timestamps
are modelled as integer minutes, wind speeds and directions as rationals,
missing values as Option.  External library calls (scipy find_peaks,
ruptures PELT, the quantile-mapping BiasCorrection, math.sin) are modelled
as function parameters, since their code is not part of this repository;
every piece of control flow and arithmetic of the repository itself is
translated directly.
-/

namespace WindTool

/-- Half-to-even rounding of a rational to an integer.  This mirrors the
rounding used by numpy.round, python round and pandas Timestamp.round:
round to the nearest integer, ties go to the even integer. -/
def rnd (q : ℚ) : ℤ :=
  if q - ⌊q⌋ < 1/2 then ⌊q⌋
  else if 1/2 < q - ⌊q⌋ then ⌊q⌋ + 1
  else if Even ⌊q⌋ then ⌊q⌋ else ⌊q⌋ + 1

/-- Rounding to two decimal places, as round(x, 2) in the source. -/
def rnd2 (q : ℚ) : ℚ := (rnd (q * 100) : ℚ) / 100

/-- Rounding to four decimal places, as round(x, 4) in the source. -/
def rnd4 (q : ℚ) : ℚ := (rnd (q * 10000) : ℚ) / 10000

theorem rnd_le (q : ℚ) : (rnd q : ℚ) ≤ q + 1/2 := by
  have h1 : ((⌊q⌋ : ℤ) : ℚ) ≤ q := Int.floor_le q
  have h2 : q < (⌊q⌋ : ℚ) + 1 := Int.lt_floor_add_one q
  unfold rnd
  split_ifs with ha hb hc <;> push_cast <;> linarith

theorem le_rnd (q : ℚ) : q - 1/2 ≤ (rnd q : ℚ) := by
  have h1 : ((⌊q⌋ : ℤ) : ℚ) ≤ q := Int.floor_le q
  have h2 : q < (⌊q⌋ : ℚ) + 1 := Int.lt_floor_add_one q
  unfold rnd
  split_ifs with ha hb hc <;> push_cast <;> linarith

theorem rnd_mono {q r : ℚ} (h : q ≤ r) : rnd q ≤ rnd r := by
  by_contra hc
  push_neg at hc
  have h1 : (rnd r : ℚ) + 1 ≤ (rnd q : ℚ) := by exact_mod_cast Int.add_one_le_iff.mpr hc
  have h2 := rnd_le q
  have h3 := le_rnd r
  have h4 : (rnd q : ℚ) = q + 1/2 := by linarith
  have h5 : (rnd r : ℚ) = r - 1/2 := by linarith
  have h6 : q = r := by linarith
  subst h6
  linarith

theorem rnd2_mono {q r : ℚ} (h : q ≤ r) : rnd2 q ≤ rnd2 r := by
  unfold rnd2
  have : rnd (q * 100) ≤ rnd (r * 100) := rnd_mono (by linarith)
  have hcast : ((rnd (q * 100) : ℤ) : ℚ) ≤ ((rnd (r * 100) : ℤ) : ℚ) := by exact_mod_cast this
  linarith

theorem rnd4_mono {q r : ℚ} (h : q ≤ r) : rnd4 q ≤ rnd4 r := by
  unfold rnd4
  have : rnd (q * 10000) ≤ rnd (r * 10000) := rnd_mono (by linarith)
  have hcast : ((rnd (q * 10000) : ℤ) : ℚ) ≤ ((rnd (r * 10000) : ℤ) : ℚ) := by exact_mod_cast this
  linarith

theorem abs_rnd2_sub_le (q : ℚ) : |rnd2 q - q| ≤ 1/200 := by
  have h1 := rnd_le (q * 100)
  have h2 := le_rnd (q * 100)
  rw [abs_le]
  unfold rnd2
  constructor <;> linarith

/-- One station record as carried through process_raw.py.  Timestamps valid
and ts are minutes since 1980-01-01 00:00; sped is the raw wind speed in mph
(rows with missing speed are dropped before this type is formed, see
readAndProcessCsv); drct is the wind direction with none for a missing
value; sped_adj is the bias-corrected speed column added by adjustStation;
decade is the decade start year assigned by the labeling loop, none when the
year falls outside the lookup table. -/
structure Row where
  sid : ℕ
  valid : ℤ
  ts : ℤ
  sped : ℚ
  drct : Option ℚ
  gust : Option ℚ
  sped_adj : ℚ
  decade : Option ℕ
  deriving DecidableEq, Repr

/-- A raw csv record before type filtering: speed, direction and gust may
all be missing (na_values in read_csv). -/
structure RawObs where
  sid : ℕ
  valid : ℤ
  sped : Option ℚ
  drct : Option ℚ
  gust : Option ℚ
  deriving DecidableEq, Repr

/-- Rounding a minute timestamp to the nearest hour, as
station.valid.dt.round applied with an hourly frequency (ties to the even
hour). -/
def roundH (m : ℤ) : ℤ := 60 * rnd ((m : ℚ) / 60)

/-- The absolute time delta between a record and its rounded hour, as the
delta_dt column of filter_to_hour. -/
def delta (r : Row) : ℤ := |r.ts - r.valid|

/-- Assign the rounded hour column ts, first step of filter_to_hour. -/
def setTs (r : Row) : Row := { r with ts := roundH r.valid }

/-- The minimum delta test of filter_to_hour: a row survives the merge with
the per-hour minimum table exactly when its delta equals the minimum delta
of its hour group, that is when no row of the same group has a smaller
delta. -/
def isMinB (orig : List Row) (r : Row) : Bool :=
  orig.all (fun s => s.ts ≠ r.ts ∨ delta r ≤ delta s)

/-- Recursive worker for filter_to_hour: keep a row when it has the minimum
delta of its hour group and its hour has not been kept yet (the
drop_duplicates step keeping the first row of each hour). -/
def hourGo (orig : List Row) : List Row → List ℤ → List Row
  | [], _ => []
  | r :: rest, seen =>
    if isMinB orig r ∧ r.ts ∉ seen then r :: hourGo orig rest (r.ts :: seen)
    else hourGo orig rest seen

/-- filter_to_hour of process_raw.py: round every timestamp to the hour,
then keep per clock hour the observation with the minimum absolute delta
from the hour mark, first-come on ties. -/
def filterToHour (l : List Row) : List Row :=
  hourGo (l.map setTs) (l.map setTs) []

/-- The speed series handed to find_peaks: pairs of timestamp index and
speed value.  The isnan filter of filter_spurious is the identity here
because rows with missing speed were already dropped by the sped lt 110
filter of read_and_process_csv. -/
def seriesOf (station : List Row) : List (ℤ × ℚ) :=
  station.map (fun r => (r.ts, r.sped))

/-- Convert find_peaks positional indices into the timestamp labels of the
series they were computed on. -/
def tsAt (ser : List (ℤ × ℚ)) (idxs : List ℕ) : List ℤ :=
  idxs.filterMap (fun i => (ser.get? i).map Prod.fst)

/-- Drop series entries whose timestamp was flagged. -/
def removeTs (ser : List (ℤ × ℚ)) (bad : List ℤ) : List (ℤ × ℚ) :=
  ser.filter (fun p => p.1 ∉ bad)

/-- The inverted series passed to the dip detection pass. -/
def negSer (ser : List (ℤ × ℚ)) : List (ℤ × ℚ) :=
  ser.map (fun p => (p.1, -p.2))

/-- filter_spurious of process_raw.py.  The three peak detection calls
(scipy.signal.find_peaks with prominence, threshold and width arguments,
plus the width_heights post filter) are external library computations and
are taken as the function parameters dObv, dDip and dFine, each returning
positional indices into the series it is given.  Everything else is the
literal bookkeeping of the source, including the slip in the final else
branch, which assigns the empty placeholder slice to dips instead of
spikes: when no spikes were flagged, the dips flagged earlier have already
been dropped from the station data but the returned dips frame is
overwritten with the empty slice. -/
def filterSpurious (dObv dDip dFine : List (ℤ × ℚ) → List ℕ)
    (station : List Row) : List Row × List Row × List Row :=
  let ser0 := seriesOf station
  let obvTs := tsAt ser0 (dObv ser0)
  let ser1 := removeTs ser0 obvTs
  let dipTs := tsAt ser1 (dDip (negSer ser1))
  let ser2 := removeTs ser1 dipTs
  let fineTs := tsAt ser2 (dFine ser2)
  let spikeTs := obvTs ++ fineTs
  if dipTs ≠ [] then
    let dipsOut := station.filter (fun r => r.ts ∈ dipTs)
    let st1 := station.filter (fun r => r.ts ∉ dipTs)
    if spikeTs ≠ [] then
      (st1.filter (fun r => r.ts ∉ spikeTs),
       st1.filter (fun r => r.ts ∈ spikeTs), dipsOut)
    else
      (st1, [], [])
  else
    if spikeTs ≠ [] then
      (station.filter (fun r => r.ts ∉ spikeTs),
       station.filter (fun r => r.ts ∈ spikeTs), [])
    else
      (station, [], [])

/-- Minute timestamp of 1980-01-01, the lower bound of the first slice in
adjust_station. -/
def d1980 : ℤ := 0

/-- Minute timestamp of 2019-12-31, the upper bound of the last slice in
adjust_station: 14609 days after 1980-01-01. -/
def dEnd : ℤ := 14609 * 1440

/-- The five year test of adjust_station for two breakpoints: the day
difference of the two breakpoint dates divided by 365 exceeds 5. -/
def gapGT5y (a b : ℤ) : Bool := decide ((((b - a).fdiv 1440 : ℤ) : ℚ) / 365 > 5)

/-- Slice construction of adjust_station for a nonempty breakpoint list:
returns the list of inclusive time slices and the breakpoint dates kept for
the changepoint log.  With two breakpoints closer than five years only the
first is used; the log is built from the truncated date list.  The first
component always ends with the reference slice. -/
def buildSlices (d0 : ℤ) (rest : List ℤ) : List (ℤ × ℤ) × List ℤ :=
  match rest with
  | [d1] =>
    if gapGT5y d0 d1 then ([(d1980, d0), (d0, d1), (d1, dEnd)], [d0, d1])
    else ([(d1980, d0), (d0, dEnd)], [d0])
  | _ => ([(d1980, d0), (d0, dEnd)], d0 :: rest)

/-- Row action of the correction assignment on one slice. -/
def applyRow (f : ℕ → Row → ℚ) (k : ℕ) (sl : ℤ × ℤ) (r : Row) : Row :=
  if sl.1 ≤ r.ts ∧ r.ts ≤ sl.2 then { r with sped_adj := f k r } else r

/-- Apply a bias correction output to the rows of one slice: pandas loc
assignment of the corrected values to sped_adj on the inclusive date
slice.  The quantile mapping itself (BiasCorrection basic_quantile) is the
external parameter f, indexed by the slice number. -/
def applySlice (f : ℕ → Row → ℚ) (k : ℕ) (sl : ℤ × ℤ) (rows : List Row) :
    List Row :=
  rows.map (applyRow f k sl)

/-- Row action of the first clamp of adjust_station: an adjusted value
below zero is set to zero together with the direction. -/
def negClampRow (r : Row) : Row :=
  if r.sped_adj < 0 then { r with sped_adj := 0, drct := some 0 } else r

/-- Row action of the second clamp of adjust_station: a row whose raw speed
is zero gets an adjusted speed of zero. -/
def calmClampRow (r : Row) : Row :=
  if r.sped = 0 then { r with sped_adj := 0 } else r

/-- First clamp of adjust_station over the whole frame. -/
def clampNeg (rows : List Row) : List Row := rows.map negClampRow

/-- Second clamp of adjust_station over the whole frame. -/
def clampCalm (rows : List Row) : List Row := rows.map calmClampRow

/-- One iteration of the correction loop of adjust_station. -/
def adjStep (f : ℕ → Row → ℚ) (k : ℕ) (sl : ℤ × ℤ) (rows : List Row) :
    List Row :=
  clampCalm (clampNeg (applySlice f k sl rows))

/-- The correction loop over the historical slices. -/
def adjustLoop (f : ℕ → Row → ℚ) (slices : List (ℤ × ℤ)) (rows : List Row) :
    List Row :=
  (slices.enum).foldl (fun acc p => adjStep f p.1 p.2 acc) rows

/-- The loop state after the first k iterations. -/
def adjustLoopTo (f : ℕ → Row → ℚ) (slices : List (ℤ × ℤ))
    (rows : List Row) (k : ℕ) : List Row :=
  ((slices.enum).take k).foldl (fun acc p => adjStep f p.1 p.2 acc) rows

/-- adjust_station of process_raw.py.  The monthly aggregation and the PELT
changepoint search (ruptures, external) are summarised by the parameter
cptDates: the list of breakpoint dates derived from the detected
changepoints, empty when the search reports none (len(cpts) equal 1 in the
source).  With no breakpoint the adjusted speed is a copy of the raw speed
and the changepoint log is empty; otherwise the historical slices, all
slices but the most recent, are corrected in order by f followed by the two
clamps, and the log holds the kept breakpoint dates. -/
def adjustStation (f : ℕ → Row → ℚ) (cptDates : List ℤ) (rows : List Row) :
    List Row × List ℤ :=
  match cptDates with
  | [] => (rows.map (fun r => { r with sped_adj := r.sped }), [])
  | d0 :: rest =>
    let bs := buildSlices d0 rest
    (adjustLoop f bs.1.dropLast (rows.map (fun r => { r with sped_adj := r.sped })),
     bs.2)

/-- Decade labels of luts.py as decade start years, assigned from the year
of the rounded timestamp; the source loops over the decades table and
leaves rows outside it unlabeled.  Cumulative day counts: the 1980s hold
3653 days, then 3652, 3653 and 3652. -/
def decadeOfTs (ts : ℤ) : Option ℕ :=
  let d := ts.fdiv 1440
  if 0 ≤ d ∧ d < 3653 then some 1980
  else if 3653 ≤ d ∧ d < 7305 then some 1990
  else if 7305 ≤ d ∧ d < 10958 then some 2000
  else if 10958 ≤ d ∧ d < 14610 then some 2010
  else none

/-- The read step: rows whose speed is missing or at least 110 are dropped
(a missing value compares false against 110 in pandas), the survivors are
typed records. -/
def speedCeiling (raws : List RawObs) : List Row :=
  raws.filterMap (fun a =>
    match a.sped with
    | some v =>
      if v < 110 then
        some ⟨a.sid, a.valid, 0, v, a.drct, a.gust, 0, none⟩
      else none
    | none => none)

/-- Drop rows with zero speed but a known nonzero direction. -/
def dropContradictory (rows : List Row) : List Row :=
  rows.filter (fun r => ¬(r.sped = 0 ∧ r.drct ≠ none ∧ r.drct ≠ some 0))

/-- Row action of the calm standardization: speeds at or below 2.3 become
calm with zero direction. -/
def calmNormRow (r : Row) : Row :=
  if r.sped ≤ 23/10 then { r with sped := 0, drct := some 0 } else r

/-- The calm standardization over the frame. -/
def calmNorm (rows : List Row) : List Row := rows.map calmNormRow

/-- Row action of the gust fix: negative gusts become missing. -/
def gustRow (r : Row) : Row :=
  match r.gust with
  | some g => if g < 0 then { r with gust := none } else r
  | none => r

/-- The gust fix over the frame. -/
def gustFix (rows : List Row) : List Row := rows.map gustRow

/-- read_and_process_csv of process_raw.py, from parsed raw records to the
processed station table, the spike and dip audit frames and the changepoint
log.  In source order: drop rows without sped lt 110, drop rows with zero
speed but a known nonzero direction, standardize speeds at or below 2.3 to
calm with zero direction, set negative gusts to missing, resample to the
hour, remove spurious observations, run the changepoint correction, label
decades. -/
def readAndProcessCsv (dObv dDip dFine : List (ℤ × ℚ) → List ℕ)
    (f : ℕ → Row → ℚ) (cptDates : List ℤ) (raws : List RawObs) :
    List Row × List Row × List Row × List ℤ :=
  let rows4 := filterToHour (gustFix (calmNorm (dropContradictory (speedCeiling raws))))
  let fs := filterSpurious dObv dDip dFine rows4
  let adj := adjustStation f cptDates fs.1
  (adj.1.map (fun r => { r with decade := decadeOfTs r.ts }), fs.2.1, fs.2.2, adj.2)

/-- Rounding to three decimal places, as round(x, 3) in process_calms. -/
def rnd3 (q : ℚ) : ℚ := (rnd (q * 1000) : ℚ) / 1000

/-- One cleaned observation as consumed by chunk_to_rose: the ws column of
preprocess.py is the adjusted speed (main renames ws_adj to ws), wd the
direction, decade and month the grouping labels set by process_roses. -/
structure WObs where
  sid : ℕ
  ws : ℚ
  wd : ℚ
  decade : String
  month : ℕ
  deriving DecidableEq, Repr

/-- One output row of chunk_to_rose. -/
structure RoseRow where
  sid : ℕ
  dclass : ℚ
  srange : String
  count : ℕ
  freq : ℚ
  decade : String
  month : ℕ
  coarse : Bool
  deriving DecidableEq, Repr

/-- The speed_ranges table of luts.py: name, lower bound, upper bound.  The
bounds are used inclusively on both ends by chunk_to_rose
(Series.between with inclusive true). -/
def speedRanges : List (String × ℚ × ℚ) :=
  [("0-6", 1/1000, 6), ("6-10", 6, 10), ("10-14", 10, 14),
   ("14-18", 14, 18), ("18-22", 18, 22), ("22+", 22, 1000)]

/-- Fine direction binning of chunk_to_rose: pd.cut with edges 5, 15, ...,
355 (left-open, right-closed) and labels 1 to 35; directions at or below 5
or above 355 fall in the exceptional class 0. -/
def dirClassFine (wd : ℚ) : ℚ :=
  if 5 < wd ∧ wd ≤ 355 then ((⌈(wd - 5) / 10⌉ : ℤ) : ℚ) else 0

/-- Coarse direction binning of chunk_to_rose: pd.cut with edges 22.5,
67.5, ..., 337.5 and labels 4.5, 9, ..., 31.5; the wraparound bin is the
exceptional class 0. -/
def dirClassCoarse (wd : ℚ) : ℚ :=
  if 45/2 < wd ∧ wd ≤ 675/2 then (9/2) * ((⌈(wd - 45/2) / 45⌉ : ℤ) : ℚ) else 0

/-- All fine direction class labels, the 35 interval labels plus the
exceptional class 0. -/
def fineClasses : List ℚ := (List.range 36).map (fun n : ℕ => (n : ℚ))

/-- All coarse direction class labels. -/
def coarseClasses : List ℚ := (List.range 8).map (fun n : ℕ => (n : ℚ) * (9/2))

/-- Membership of a speed in one band of speed_ranges, both bounds
inclusive as in Series.between. -/
def inBucket (ws : ℚ) (b : String × ℚ × ℚ) : Bool :=
  decide (b.2.1 ≤ ws ∧ ws ≤ b.2.2)

/-- The rows chunk_to_rose emits for one binning resolution: the groupby on
the categorical direction_class column iterates every category, present or
not, and for each category and each speed range the count is the number of
group members with speed inside the inclusive range; the frequency is the
rounded percentage of the whole chunk.  Row order differs from the source
iteration order, which is irrelevant to the emitted multiset of rows. -/
def chunkRes (dc : ℚ → ℚ) (classes : List ℚ) (coarse : Bool)
    (station : List WObs) : List RoseRow :=
  classes.flatMap (fun c =>
    speedRanges.map (fun b =>
      let grp := station.filter (fun r => decide (dc r.wd = c))
      let cnt := (grp.filter (fun r => inBucket r.ws b)).length
      let full := station.length
      { sid := ((station.head?).map WObs.sid).getD 0
        dclass := c
        srange := b.1
        count := cnt
        freq := if 0 < full then rnd2 ((cnt : ℚ) / (full : ℚ) * 100) else 0
        decade := ((station.head?).map WObs.decade).getD "none"
        month := ((station.head?).map WObs.month).getD 0
        coarse := coarse }))

/-- chunk_to_rose of pipeline/preprocess.py: the fine resolution rows
followed by the coarse resolution rows. -/
def chunkToRose (station : List WObs) : List RoseRow :=
  chunkRes dirClassFine fineClasses false station ++
  chunkRes dirClassCoarse coarseClasses true station

/-- One observation as seen by the sufficiency check: the calendar
coordinates of its timestamp. -/
structure SObs where
  year : ℕ
  doy : ℕ
  hour : ℕ
  deriving DecidableEq, Repr

/-- The calendar date of an observation. -/
def dateOf (o : SObs) : ℕ × ℕ := (o.year, o.doy)

/-- Gregorian leap year rule. -/
def leapYear (y : ℕ) : Bool :=
  decide ((y % 4 = 0 ∧ y % 100 ≠ 0) ∨ y % 400 = 0)

/-- Days in a calendar year. -/
def daysInYear (y : ℕ) : ℕ := if leapYear y then 366 else 365

/-- The ndays denominator of check_sufficient_data: the timedelta in days
from January 1 of the decade start year to December 31 of its ninth
successor, which is one less than the number of days the decade holds. -/
def decadeSpan (dyear : ℕ) : ℕ :=
  ((List.range 10).map (fun k => daysInYear (dyear + k))).sum - 1

/-- The prelim restriction of check_sufficient_data: with prelim set the
data is first filtered to the 1990s decade label, otherwise used whole. -/
def effSub (prelim : Bool) (station : List SObs) : List SObs :=
  if prelim
  then station.filter (fun o => decide (1990 ≤ o.year ∧ o.year ≤ 1999))
  else station

/-- check_sufficient_data of src/preprocess.py.  The decade start year
comes from the first row; an empty frame raises IndexError there, which the
source catches and turns into False.  value_counts counts rows per distinct
date; a day passes when its count over 24 strictly exceeds r1, and the
station passes when the number of passing days over ndays strictly exceeds
r2. -/
def checkSufficientData (prelim : Bool) (r1 r2 : ℚ) (station : List SObs) :
    Bool :=
  match effSub prelim station with
  | [] => false
  | o :: rest =>
    let st := o :: rest
    let dyear := o.year / 10 * 10
    let ndays := decadeSpan dyear
    let dates := (st.map dateOf).dedup
    let qual := dates.countP (fun d =>
      decide (((st.countP (fun x => decide (dateOf x = d)) : ℕ) : ℚ) / 24 > r1))
    decide (((qual : ℕ) : ℚ) / (ndays : ℚ) > r2)

/-- One cleaned observation as consumed by process_calms: month is the
calendar month of the timestamp (the source derives it from ts inside the
function), speed and direction may be missing before the dropna step. -/
structure CObs where
  sid : ℕ
  month : ℕ
  decade : String
  ws : Option ℚ
  wd : Option ℚ
  deriving DecidableEq, Repr

/-- The grouping key columns of a wind rose row that process_calms reads
from the roses frame. -/
structure RoseKey where
  sid : ℕ
  month : ℕ
  decade : String
  deriving DecidableEq, Repr

/-- One output record of process_calms. -/
structure CalmRec where
  sid : ℕ
  month : ℕ
  decade : String
  total : ℕ
  calm : ℕ
  percent : ℚ
  deriving DecidableEq, Repr

/-- The whole-history calm records of process_calms: group totals per
station merged (inner) with the per-station counts of calm rows.  The inner
merge keeps exactly the stations that have at least one calm row. -/
def calmsAnnual (st : List CObs) : List CalmRec :=
  ((st.map CObs.sid).dedup).filterMap (fun s =>
    let total := st.countP (fun r => decide (r.sid = s))
    let calm := st.countP (fun r => decide (r.sid = s ∧ r.ws = some 0))
    if 0 < calm then
      some ⟨s, 0, "none", total, calm, rnd3 ((calm : ℚ) / (total : ℚ)) * 100⟩
    else none)

/-- The per-month calm records of process_calms, with the same inner merge
on the station and month keys. -/
def calmsMonthly (st : List CObs) : List CalmRec :=
  ((st.map (fun r => (r.sid, r.month))).dedup).filterMap (fun k =>
    let total := st.countP (fun r => decide (r.sid = k.1 ∧ r.month = k.2))
    let calm := st.countP (fun r =>
      decide (r.sid = k.1 ∧ r.month = k.2 ∧ r.ws = some 0))
    if 0 < calm then
      some ⟨k.1, k.2, "none", total, calm,
            rnd3 ((calm : ℚ) / (total : ℚ)) * 100⟩
    else none)

/-- The per-decade comparison calm records of process_calms, restricted to
stations that own a 2010-2019 comparison rose, again with the inner
merge. -/
def calmsCompare (st : List CObs) (roses : List RoseKey) : List CalmRec :=
  let compareSids := (roses.filter (fun r => decide (r.decade = "2010-2019"))).map RoseKey.sid
  let st2 := st.filter (fun r => decide (r.sid ∈ compareSids))
  ((st2.map (fun r => (r.sid, r.decade))).dedup).filterMap (fun k =>
    let total := st2.countP (fun r => decide (r.sid = k.1 ∧ r.decade = k.2))
    let calm := st2.countP (fun r =>
      decide (r.sid = k.1 ∧ r.decade = k.2 ∧ r.ws = some 0))
    if 0 < calm then
      some ⟨k.1, 0, k.2, total, calm, rnd3 ((calm : ℚ) / (total : ℚ)) * 100⟩
    else none)

/-- process_calms of pipeline/preprocess.py: restrict the stations to those
appearing in the roses frame, drop rows with missing speed or direction,
build the three calm tables, concatenate, and keep records whose station
and decade combination appears in the roses frame (the source concatenates
the sid and decade strings for this membership test). -/
def processCalms (stations : List CObs) (roses : List RoseKey) :
    List CalmRec :=
  let st0 := stations.filter (fun r => decide (r.sid ∈ roses.map RoseKey.sid))
  let st := st0.filter (fun r => r.ws ≠ none ∧ r.wd ≠ none)
  let calms := calmsAnnual st ++ calmsMonthly st ++ calmsCompare st roses
  calms.filter (fun c =>
    decide ((c.sid, c.decade) ∈ roses.map (fun r => (r.sid, r.decade))))

/-- The angle wrap of crosswind_component: numpy modulo keeps the result in
the half-open interval from 0 to 360. -/
def wrapAngle (wd d : ℚ) : ℚ :=
  (wd - d + 180) - 360 * ((⌊(wd - d + 180) / 360⌋ : ℤ) : ℚ) - 180

/-- crosswind_component of pipeline/preprocess.py on a list of speed and
direction pairs.  The sine of the wrapped angle in degrees is the external
parameter sinDeg since math.sin is transcendental; the product with the
speed is taken in absolute value and rounded to two decimals. -/
def crosswindComponent (sinDeg : ℚ → ℚ) (winds : List (ℚ × ℚ)) (d : ℚ) :
    List ℚ :=
  winds.map (fun p => rnd2 |sinDeg (wrapAngle p.2 d) * p.1|)

/-- exceedance_frequencies of pipeline/preprocess.py: for each threshold,
the share of observations whose crosswind component strictly exceeds it,
rounded to four decimals and scaled to percent. -/
def exceedanceFrequencies (sinDeg : ℚ → ℚ) (winds : List (ℚ × ℚ)) (d : ℚ)
    (thresholds : List ℚ) : List ℚ :=
  let cw := crosswindComponent sinDeg winds d
  let n := cw.length
  thresholds.map (fun t =>
    rnd4 (((cw.countP (fun c => decide (t < c))) : ℚ) / (n : ℚ)) * 100)

/-- The three regulatory thresholds of process_crosswinds: knots times
1.15078, rounded to two decimals. -/
def exceedThresholds : List ℚ :=
  [(21/2) * (115078/100000), 13 * (115078/100000), 16 * (115078/100000)].map rnd2

/-- One observation as consumed by process_wep, after the year and month
columns have been derived from ts. -/
structure EObs where
  sid : ℕ
  year : ℕ
  month : ℕ
  ws : Option ℚ
  wd : Option ℚ
  deriving DecidableEq, Repr

/-- One record of the mean wind energy table. -/
structure WepRec where
  sid : ℕ
  year : ℕ
  month : ℕ
  wep : ℚ
  deriving DecidableEq, Repr

/-- Sample variance with one delta degree of freedom, the square of the
pandas groupby std. -/
def svar (vals : List ℚ) : ℚ :=
  let m := vals.sum / (vals.length : ℚ)
  (vals.map (fun v => (v - m) ^ 2)).sum / ((vals.length : ℚ) - 1)

/-- The monthly mean power density table of process_wep before the outlier
filter: per station, year and month the mean of the per-observation power
density, rounded to a whole number.  The speed conversion chain of the
source, division by 2.237 into meters per second and the log law height
factor, is the positive constant kappa, a parameter because the logarithm
ratio is irrational; the power density is 0.5 times 1.23 times the cube of
the converted speed. -/
def meanWep (kappa : ℚ) (stations : List EObs) : List WepRec :=
  let st := stations.filter (fun r => r.ws ≠ none ∧ r.wd ≠ none)
  let wepOf : EObs → ℚ := fun r => (123/200) * (kappa * r.ws.getD 0) ^ 3
  ((st.map (fun r => (r.sid, r.year, r.month))).dedup).map (fun k =>
    let grp := st.filter (fun r => decide ((r.sid, r.year, r.month) = k))
    ⟨k.1, k.2.1, k.2.2,
     ((rnd ((grp.map wepOf).sum / (grp.length : ℚ)) : ℤ) : ℚ)⟩)

/-- process_wep of pipeline/preprocess.py: the monthly mean table filtered
by the outlier guard.  The source keeps a record when its value is strictly
below five times the sample standard deviation of its station and month
group; since the standard deviation is an irrational square root, the
comparison is encoded equivalently over rationals: for a group of at least
two records, wep lt 5 std iff wep is negative or wep squared is below 25
times the sample variance; for a single-record group the pandas std is NaN,
the comparison is false and the record is dropped. -/
def processWep (kappa : ℚ) (stations : List EObs) : List WepRec :=
  let means := meanWep kappa stations
  means.filter (fun r =>
    let vals := (means.filter (fun m =>
      decide (m.sid = r.sid ∧ m.month = r.month))).map WepRec.wep
    decide (1 < vals.length ∧ (r.wep < 0 ∨ r.wep ^ 2 < 25 * svar vals)))

/-- The historical slices the correction loop of adjust_station runs over:
all slices except the trailing reference slice. -/
def histSlices (cptDates : List ℤ) : List (ℤ × ℤ) :=
  match cptDates with
  | [] => []
  | d0 :: rest => (buildSlices d0 rest).1.dropLast

/-- The initial adjusted column: a copy of the raw speed. -/
def initAdj (rows : List Row) : List Row :=
  rows.map (fun r => { r with sped_adj := r.sped })

theorem adjustStation_fst (f : ℕ → Row → ℚ) (d0 : ℤ) (rest : List ℤ)
    (rows : List Row) :
    (adjustStation f (d0 :: rest) rows).1 =
      adjustLoop f (histSlices (d0 :: rest)) (initAdj rows) := rfl

theorem negClampRow_sped (r : Row) : (negClampRow r).sped = r.sped := by
  unfold negClampRow; split <;> rfl

theorem negClampRow_drct_keep (r : Row) (hd : r.drct = some 0) :
    (negClampRow r).drct = some 0 := by
  unfold negClampRow
  split
  · rfl
  · exact hd

theorem applyRow_sped (f : ℕ → Row → ℚ) (k : ℕ) (sl : ℤ × ℤ) (r : Row) :
    (applyRow f k sl r).sped = r.sped := by
  unfold applyRow; split <;> rfl

theorem applyRow_drct (f : ℕ → Row → ℚ) (k : ℕ) (sl : ℤ × ℤ) (r : Row) :
    (applyRow f k sl r).drct = r.drct := by
  unfold applyRow; split <;> rfl

theorem negClampRow_nonneg (r : Row) : 0 ≤ (negClampRow r).sped_adj := by
  unfold negClampRow
  split
  · rfl
  · next h => exact le_of_not_lt h

theorem calmClampRow_sped (r : Row) : (calmClampRow r).sped = r.sped := by
  unfold calmClampRow; split <;> rfl

theorem calmClampRow_drct (r : Row) : (calmClampRow r).drct = r.drct := by
  unfold calmClampRow; split <;> rfl

theorem clampRow_inv (z : Row) :
    0 ≤ (calmClampRow (negClampRow z)).sped_adj ∧
      ((calmClampRow (negClampRow z)).sped = 0 →
        (calmClampRow (negClampRow z)).sped_adj = 0) := by
  by_cases hs : (negClampRow z).sped = 0
  · constructor
    · unfold calmClampRow
      rw [if_pos hs]
    · intro _
      unfold calmClampRow
      rw [if_pos hs]
  · constructor
    · unfold calmClampRow
      rw [if_neg hs]
      exact negClampRow_nonneg z
    · intro h
      rw [calmClampRow_sped] at h
      exact absurd h hs

theorem clampInv_adjStep (f : ℕ → Row → ℚ) (k : ℕ) (sl : ℤ × ℤ)
    (rows : List Row) :
    ∀ r ∈ adjStep f k sl rows,
      0 ≤ r.sped_adj ∧ (r.sped = 0 → r.sped_adj = 0) := by
  intro r hr
  unfold adjStep clampCalm clampNeg at hr
  rw [List.map_map] at hr
  rcases List.mem_map.mp hr with ⟨z, _, hzr⟩
  subst hzr
  exact clampRow_inv z

theorem clampInv_foldl (f : ℕ → Row → ℚ) :
    ∀ (ps : List (ℕ × (ℤ × ℤ))) (rows : List Row), ps ≠ [] →
      ∀ r ∈ ps.foldl (fun acc p => adjStep f p.1 p.2 acc) rows,
        0 ≤ r.sped_adj ∧ (r.sped = 0 → r.sped_adj = 0) := by
  intro ps
  induction ps with
  | nil => intro rows h; exact absurd rfl h
  | cons x xs ih =>
    intro rows _ r hr
    cases xs with
    | nil => exact clampInv_adjStep f x.1 x.2 rows r hr
    | cons y ys =>
      exact ih (adjStep f x.1 x.2 rows) (by simp) r hr

theorem histSlices_ne (d0 : ℤ) (rest : List ℤ) :
    histSlices (d0 :: rest) ≠ [] := by
  unfold histSlices buildSlices
  rcases rest with _ | ⟨d1, rest2⟩
  · simp [List.dropLast]
  · rcases rest2 with _ | ⟨d2, rest3⟩
    · by_cases h : gapGT5y d0 d1 <;> simp [h, List.dropLast]
    · simp [List.dropLast]

/-- Positionwise view of one correction step: each output row arises from
the input row at the same index through the slice assignment and the two
clamps. -/
theorem adjStep_getElem (f : ℕ → Row → ℚ) (k : ℕ) (sl : ℤ × ℤ)
    (rows : List Row) (i : ℕ) :
    (adjStep f k sl rows)[i]? =
      ((applySlice f k sl rows)[i]?.map negClampRow).map calmClampRow := by
  unfold adjStep clampCalm clampNeg
  simp [List.getElem?_map]

/-- Once a row has direction zero, the correction loop never changes it:
the slice assignment writes only sped_adj, the first clamp writes direction
zero again, the second clamp writes only sped_adj. -/
theorem drct_persist (f : ℕ → Row → ℚ) :
    ∀ (ps : List (ℕ × (ℤ × ℤ))) (rows : List Row) (i : ℕ) (r : Row),
      rows[i]? = some r → r.drct = some 0 →
      ∃ r2, (ps.foldl (fun acc p => adjStep f p.1 p.2 acc) rows)[i]? = some r2 ∧
        r2.drct = some 0 := by
  intro ps
  induction ps with
  | nil => intro rows i r hi hd; exact ⟨r, hi, hd⟩
  | cons x xs ih =>
    intro rows i r hi hd
    have hstep : ∃ r1, (adjStep f x.1 x.2 rows)[i]? = some r1 ∧ r1.drct = some 0 := by
      rw [adjStep_getElem]
      unfold applySlice
      rw [List.getElem?_map, hi]
      refine ⟨_, rfl, ?_⟩
      rw [calmClampRow_drct]
      apply negClampRow_drct_keep
      rw [applyRow_drct]
      exact hd
    rcases hstep with ⟨r1, h1, hd1⟩
    exact ih (adjStep f x.1 x.2 rows) i r1 h1 hd1

/-- C1: for every station run through the changepoint and bias-correction
stage, assuming all raw speeds are nonnegative, every corrected row has a
nonnegative adjusted speed, every row whose raw speed is zero has adjusted
speed exactly zero, and whenever a value was driven below zero at some
iteration of the correction loop (so it got clamped up to zero), the final
direction of that row is zero. -/
theorem c1_correction_clamp (f : ℕ → Row → ℚ) (cptDates : List ℤ)
    (rows : List Row) (hraw : ∀ r ∈ rows, 0 ≤ r.sped) :
    (∀ r ∈ (adjustStation f cptDates rows).1,
      0 ≤ r.sped_adj ∧ (r.sped = 0 → r.sped_adj = 0)) ∧
    (∀ (k i : ℕ) (sl : ℤ × ℤ) (m : Row),
      (histSlices cptDates)[k]? = some sl →
      (applySlice f k sl
        (adjustLoopTo f (histSlices cptDates) (initAdj rows) k))[i]? = some m →
      m.sped_adj < 0 →
      ∃ r, ((adjustStation f cptDates rows).1)[i]? = some r ∧
        r.drct = some 0) := by
  constructor
  · intro r hr
    cases cptDates with
    | nil =>
      unfold adjustStation at hr
      rcases List.mem_map.mp hr with ⟨y, hy, hyr⟩
      subst hyr
      exact ⟨hraw y hy, fun h => h⟩
    | cons d0 rest =>
      rw [adjustStation_fst] at hr
      unfold adjustLoop at hr
      refine clampInv_foldl f ((histSlices (d0 :: rest)).enum) (initAdj rows) ?_ r hr
      have hne := histSlices_ne d0 rest
      intro hc
      exact hne (List.enum_eq_nil.mp hc)
  · intro k i sl m hsl happ hneg
    cases cptDates with
    | nil => simp [histSlices] at hsl
    | cons d0 rest =>
      rw [adjustStation_fst]
      unfold adjustLoop
      set S := histSlices (d0 :: rest) with hS
      set rows0 := initAdj rows with hrows0
      have hk : k < S.length := by
        by_contra hk
        push_neg at hk
        rw [List.getElem?_eq_none hk] at hsl
        exact Option.noConfusion hsl
      have henum : S.enum[k]? = some (k, sl) := by
        rw [List.getElem?_enum]
        rw [hsl]
        rfl
      have hsplit : S.enum = S.enum.take (k+1) ++ S.enum.drop (k+1) :=
        (List.take_append_drop (k+1) S.enum).symm
      rw [hsplit, List.foldl_append]
      have htake : S.enum.take (k+1) = S.enum.take k ++ [(k, sl)] := by
        rw [List.take_succ, henum]
        rfl
      have hto : (S.enum.take (k+1)).foldl
          (fun acc p => adjStep f p.1 p.2 acc) rows0 =
          adjStep f k sl (adjustLoopTo f S rows0 k) := by
        rw [htake, List.foldl_append]
        rfl
      rw [hto]
      have hmid : ∃ r1, (adjStep f k sl (adjustLoopTo f S rows0 k))[i]? = some r1 ∧
          r1.drct = some 0 := by
        rw [adjStep_getElem, happ]
        refine ⟨_, rfl, ?_⟩
        rw [calmClampRow_drct]
        unfold negClampRow
        rw [if_pos hneg]
      rcases hmid with ⟨r1, h1, hd1⟩
      exact drct_persist f (S.enum.drop (k+1)) _ i r1 h1 hd1

/-- C1 witness: a single row with raw speed five and direction ninety, no
changepoint detected: the adjusted speed is a nonnegative copy and the calm
implication holds. -/
theorem c1_correction_clamp_witness :
    0 ≤ (⟨1, 0, 0, 5, some 90, none, 5, none⟩ : Row).sped_adj ∧
      ((⟨1, 0, 0, 5, some 90, none, 5, none⟩ : Row).sped = 0 →
        (⟨1, 0, 0, 5, some 90, none, 5, none⟩ : Row).sped_adj = 0) :=
  (c1_correction_clamp (fun _ r => r.sped) []
      [⟨1, 0, 0, 5, some 90, none, 0, none⟩]
      (by intro r hr; simp at hr; subst hr; norm_num)).1
    ⟨1, 0, 0, 5, some 90, none, 5, none⟩ (by decide)

/-- C6 counterexample: two breakpoints one hundred days apart are detected
(gap at most five years), but the emitted changepoint log holds a single
record, not one per detected breakpoint as the claim states. -/
theorem c6_log_counterexample :
    ((adjustStation (fun _ r => r.sped) [0, 144000]
        [⟨1, 0, 0, 5, some 90, none, 0, none⟩]).2).length = 1 ∧
    ¬ ((adjustStation (fun _ r => r.sped) [0, 144000]
        [⟨1, 0, 0, 5, some 90, none, 0, none⟩]).2).length =
      ([0, 144000] : List ℤ).length := by
  have hgap : gapGT5y 0 144000 = false := by
    unfold gapGT5y
    have h1 : ((144000 : ℤ) - 0).fdiv 1440 = 100 := by decide
    rw [h1]
    simp only [decide_eq_false_iff_not]
    norm_num
  have h2 : (adjustStation (fun _ r => r.sped) [0, 144000]
      [⟨1, 0, 0, 5, some 90, none, 0, none⟩]).2 = [0] := by
    simp [adjustStation, buildSlices, hgap]
  rw [h2]
  refine ⟨rfl, ?_⟩
  intro h
  simp at h

/-- C6 amended: the changepoint log holds exactly the breakpoint dates
retained after the two-breakpoint collapse heuristic: the single detected
date, both dates when they are more than five years apart, only the first
otherwise; and when no breakpoint is detected the log is empty and the
adjusted speed equals the raw speed on every row. -/
theorem c6_changepoint_log (f : ℕ → Row → ℚ) (rows : List Row) :
    (∀ d0 : ℤ, (adjustStation f [d0] rows).2 = [d0]) ∧
    (∀ d0 d1 : ℤ, gapGT5y d0 d1 = true →
      (adjustStation f [d0, d1] rows).2 = [d0, d1]) ∧
    (∀ d0 d1 : ℤ, gapGT5y d0 d1 = false →
      (adjustStation f [d0, d1] rows).2 = [d0]) ∧
    ((adjustStation f [] rows).2 = [] ∧
      ∀ r ∈ (adjustStation f [] rows).1, r.sped_adj = r.sped) := by
  refine ⟨?_, ?_, ?_, ?_, ?_⟩
  · intro d0; rfl
  · intro d0 d1 h
    unfold adjustStation buildSlices
    simp [h]
  · intro d0 d1 h
    unfold adjustStation buildSlices
    simp [h]
  · rfl
  · intro r hr
    unfold adjustStation at hr
    rcases List.mem_map.mp hr with ⟨y, _, hyr⟩
    subst hyr
    rfl

/-- C6 witness: a concrete two-breakpoint pair two thousand days apart is
kept whole in the log. -/
theorem c6_changepoint_log_witness :
    (adjustStation (fun _ r => r.sped) [0, 2880000]
      [⟨1, 0, 0, 5, some 90, none, 0, none⟩]).2 = [0, 2880000] :=
  (c6_changepoint_log (fun _ r => r.sped)
      [⟨1, 0, 0, 5, some 90, none, 0, none⟩]).2.1 0 2880000 (by
    unfold gapGT5y
    have h1 : ((2880000 : ℤ) - 0).fdiv 1440 = 2000 := by decide
    rw [h1]
    simp only [decide_eq_true_eq]
    norm_num)

theorem hourGo_mem (orig : List Row) :
    ∀ (rest : List Row) (seen : List ℤ) (r : Row), r ∈ hourGo orig rest seen →
      r ∈ rest ∧ isMinB orig r = true ∧ r.ts ∉ seen := by
  intro rest
  induction rest with
  | nil => intro seen r hr; simp [hourGo] at hr
  | cons x rest ih =>
    intro seen r hr
    unfold hourGo at hr
    by_cases h : isMinB orig x = true ∧ x.ts ∉ seen
    · rw [if_pos h] at hr
      rcases List.mem_cons.mp hr with rfl | hr2
      · exact ⟨List.mem_cons_self _ _, h.1, h.2⟩
      · have := ih (x.ts :: seen) r hr2
        exact ⟨List.mem_cons_of_mem _ this.1, this.2.1,
          fun hc => this.2.2 (List.mem_cons_of_mem _ hc)⟩
    · rw [if_neg h] at hr
      have := ih seen r hr
      exact ⟨List.mem_cons_of_mem _ this.1, this.2.1, this.2.2⟩

theorem hourGo_ts_nodup (orig : List Row) :
    ∀ (rest : List Row) (seen : List ℤ),
      ((hourGo orig rest seen).map Row.ts).Nodup := by
  intro rest
  induction rest with
  | nil => intro seen; simp [hourGo]
  | cons x rest ih =>
    intro seen
    unfold hourGo
    by_cases h : isMinB orig x = true ∧ x.ts ∉ seen
    · rw [if_pos h]
      rw [List.map_cons]
      refine List.Nodup.cons ?_ (ih (x.ts :: seen))
      intro hc
      rcases List.mem_map.mp hc with ⟨y, hy, hyts⟩
      have := (hourGo_mem orig rest (x.ts :: seen) y hy).2.2
      exact this (hyts ▸ List.mem_cons_self _ _)
    · rw [if_neg h]
      exact ih seen

theorem find_pre {p : Row → Bool} :
    ∀ (pre : List Row) (x : Row) (rest : List Row),
      (∀ s ∈ pre, p s = false) → p x = true →
      (pre ++ x :: rest).find? p = some x := by
  intro pre
  induction pre with
  | nil => intro x rest _ hx; simpa using List.find?_cons_of_pos rest hx
  | cons a pre ih =>
    intro x rest hpre hx
    rw [List.cons_append, List.find?_cons_of_neg]
    · exact ih x rest (fun s hs => hpre s (List.mem_cons_of_mem _ hs)) hx
    · rw [hpre a (List.mem_cons_self _ _)]
      exact Bool.false_ne_true

theorem hourGo_first (orig : List Row) :
    ∀ (rest pre : List Row) (seen : List ℤ), orig = pre ++ rest →
      (∀ s ∈ pre, s.ts ∉ seen → isMinB orig s = false) →
      ∀ r ∈ hourGo orig rest seen,
        orig.find? (fun s => decide (s.ts = r.ts) && isMinB orig s) = some r := by
  intro rest
  induction rest with
  | nil => intro pre seen _ _ r hr; simp [hourGo] at hr
  | cons x rest ih =>
    intro pre seen horig hinv r hr
    unfold hourGo at hr
    by_cases h : isMinB orig x = true ∧ x.ts ∉ seen
    · rw [if_pos h] at hr
      rcases List.mem_cons.mp hr with rfl | hr2
      · have hfind := find_pre
          (p := fun s => decide (s.ts = r.ts) && isMinB orig s) pre r rest
          (by
            intro s hs
            by_cases hts : s.ts = r.ts
            · have hmf : isMinB orig s = false := hinv s hs (hts ▸ h.2)
              simp [hmf]
            · simp [hts])
          (by simp [h.1])
        rw [← horig] at hfind
        exact hfind
      · refine ih (pre ++ [x]) (x.ts :: seen) (by rw [horig]; simp) ?_ r hr2
        intro s hs hnot
        rcases List.mem_append.mp hs with hs1 | hs2
        · exact hinv s hs1 (fun hc => hnot (List.mem_cons_of_mem _ hc))
        · rw [List.mem_singleton] at hs2
          subst hs2
          exact absurd (List.mem_cons_self _ _) hnot
    · rw [if_neg h] at hr
      refine ih (pre ++ [x]) seen (by rw [horig]; simp) ?_ r hr
      intro s hs hnot
      rcases List.mem_append.mp hs with hs1 | hs2
      · exact hinv s hs1 hnot
      · rw [List.mem_singleton] at hs2
        subst hs2
        rcases Bool.eq_false_or_eq_true (isMinB orig s) with hf | ht
        · exact absurd ⟨hf, hnot⟩ h
        · exact ht

/-- C4: hourly resampling keeps at most one observation per clock hour (the
rounded timestamps of the output carry no duplicate); every survivor has
the minimum absolute delta from the hour mark among all input observations
rounding to the same hour; and the survivor is precisely the first input
record of its hour achieving that minimum, the drop_duplicates tie rule. -/
theorem c4_hourly_resample (l : List Row) :
    (((filterToHour l).map Row.ts).Nodup) ∧
    ∀ r ∈ filterToHour l,
      (∀ s ∈ l, roundH s.valid = r.ts → delta r ≤ |roundH s.valid - s.valid|) ∧
      (l.map setTs).find?
        (fun s => decide (s.ts = r.ts) && isMinB (l.map setTs) s) = some r := by
  unfold filterToHour
  refine ⟨hourGo_ts_nodup _ _ _, ?_⟩
  intro r hr
  have hm := hourGo_mem (l.map setTs) (l.map setTs) [] r hr
  constructor
  · intro s hs hts
    have hmin := hm.2.1
    unfold isMinB at hmin
    rw [List.all_eq_true] at hmin
    have hsm : setTs s ∈ l.map setTs := List.mem_map_of_mem _ hs
    have hdec := hmin (setTs s) hsm
    rw [decide_eq_true_eq] at hdec
    have hts2 : (setTs s).ts = roundH s.valid := rfl
    rcases hdec with hne | hle
    · exact absurd (hts2.trans hts) hne
    · have hds : delta (setTs s) = |roundH s.valid - s.valid| := rfl
      rw [← hds]
      exact hle
  · exact hourGo_first (l.map setTs) (l.map setTs) [] [] rfl
      (by intro s hs; simp at hs) r hr

/-- C4 witness: two reports within the same clock hour, recorded at minutes
twenty and five; resampling keeps the five-minute report, which has the
smaller delta and is the first minimum of its hour group. -/
theorem c4_hourly_resample_witness :
    (∀ s ∈ ([⟨1, 20, 0, 3, some 0, none, 0, none⟩,
             ⟨1, 5, 0, 4, some 0, none, 0, none⟩] : List Row),
      roundH s.valid = (⟨1, 5, 0, 4, some 0, none, 0, none⟩ : Row).ts →
      delta ⟨1, 5, 0, 4, some 0, none, 0, none⟩ ≤ |roundH s.valid - s.valid|) ∧
    (([⟨1, 20, 0, 3, some 0, none, 0, none⟩,
       ⟨1, 5, 0, 4, some 0, none, 0, none⟩] : List Row).map setTs).find?
      (fun s => decide (s.ts = (⟨1, 5, 0, 4, some 0, none, 0, none⟩ : Row).ts) &&
        isMinB (([⟨1, 20, 0, 3, some 0, none, 0, none⟩,
                  ⟨1, 5, 0, 4, some 0, none, 0, none⟩] : List Row).map setTs) s) =
      some ⟨1, 5, 0, 4, some 0, none, 0, none⟩ := by
  have h20 : roundH 20 = 0 := by norm_num [roundH, rnd]
  have h5 : roundH 5 = 0 := by norm_num [roundH, rnd]
  have hmem : (⟨1, 5, 0, 4, some 0, none, 0, none⟩ : Row) ∈
      filterToHour [⟨1, 20, 0, 3, some 0, none, 0, none⟩,
                    ⟨1, 5, 0, 4, some 0, none, 0, none⟩] := by
    unfold filterToHour
    have hmap : ([⟨1, 20, 0, 3, some 0, none, 0, none⟩,
                  ⟨1, 5, 0, 4, some 0, none, 0, none⟩] : List Row).map setTs =
        [⟨1, 20, 0, 3, some 0, none, 0, none⟩,
         ⟨1, 5, 0, 4, some 0, none, 0, none⟩] := by
      simp [setTs, h20, h5]
    rw [hmap]
    decide
  exact (c4_hourly_resample [⟨1, 20, 0, 3, some 0, none, 0, none⟩,
    ⟨1, 5, 0, 4, some 0, none, 0, none⟩]).2 _ hmem

theorem filterToHour_sub (l : List Row) :
    ∀ r ∈ filterToHour l, r ∈ l.map setTs :=
  fun r hr => (hourGo_mem (l.map setTs) (l.map setTs) [] r hr).1

theorem filterSpurious_fst_sub (dObv dDip dFine : List (ℤ × ℚ) → List ℕ)
    (st : List Row) :
    ∀ r ∈ (filterSpurious dObv dDip dFine st).1, r ∈ st := by
  intro r hr
  simp only [filterSpurious] at hr
  split_ifs at hr
  · exact (List.mem_filter.mp (List.mem_filter.mp hr).1).1
  · exact (List.mem_filter.mp hr).1
  · exact (List.mem_filter.mp hr).1
  · exact hr

theorem adjStep_eq_map (f : ℕ → Row → ℚ) (k : ℕ) (sl : ℤ × ℤ)
    (rows : List Row) :
    adjStep f k sl rows =
      rows.map (fun x => calmClampRow (negClampRow (applyRow f k sl x))) := by
  unfold adjStep clampCalm clampNeg applySlice
  rw [List.map_map, List.map_map]
  rfl

theorem stepRow_sped (f : ℕ → Row → ℚ) (k : ℕ) (sl : ℤ × ℤ) (x : Row) :
    (calmClampRow (negClampRow (applyRow f k sl x))).sped = x.sped := by
  rw [calmClampRow_sped, negClampRow_sped, applyRow_sped]

theorem stepRow_drct (f : ℕ → Row → ℚ) (k : ℕ) (sl : ℤ × ℤ) (x : Row) :
    (calmClampRow (negClampRow (applyRow f k sl x))).drct = x.drct ∨
      (calmClampRow (negClampRow (applyRow f k sl x))).drct = some 0 := by
  rw [calmClampRow_drct]
  unfold negClampRow
  split
  · right; rfl
  · left; rw [applyRow_drct]

/-- Every output row of the correction stage shares the raw speed of some
input row, and its direction is either that row's direction or zero. -/
theorem adjRel (f : ℕ → Row → ℚ) (cptDates : List ℤ) (rows : List Row) :
    ∀ r2 ∈ (adjustStation f cptDates rows).1,
      ∃ r ∈ rows, r2.sped = r.sped ∧ (r2.drct = r.drct ∨ r2.drct = some 0) := by
  cases cptDates with
  | nil =>
    intro r2 h
    unfold adjustStation at h
    rcases List.mem_map.mp h with ⟨r, hr, hr2⟩
    subst hr2
    exact ⟨r, hr, rfl, Or.inl rfl⟩
  | cons d0 rest =>
    intro r2 h
    rw [adjustStation_fst] at h
    unfold adjustLoop at h
    have main : ∀ (ps : List (ℕ × (ℤ × ℤ))) (X : List Row),
        (∀ y ∈ X, ∃ r ∈ rows, y.sped = r.sped ∧
          (y.drct = r.drct ∨ y.drct = some 0)) →
        ∀ y ∈ ps.foldl (fun acc p => adjStep f p.1 p.2 acc) X,
          ∃ r ∈ rows, y.sped = r.sped ∧ (y.drct = r.drct ∨ y.drct = some 0) := by
      intro ps
      induction ps with
      | nil => intro X hX y hy; exact hX y hy
      | cons p ps ih =>
        intro X hX y hy
        refine ih (adjStep f p.1 p.2 X) ?_ y hy
        intro z hz
        rw [adjStep_eq_map] at hz
        rcases List.mem_map.mp hz with ⟨x, hx, hxz⟩
        subst hxz
        rcases hX x hx with ⟨r, hrr, hsp, hdr⟩
        refine ⟨r, hrr, ?_, ?_⟩
        · rw [stepRow_sped]; exact hsp
        · rcases stepRow_drct f p.1 p.2 x with h1 | h1
          · rw [h1]; exact hdr
          · right; exact h1
    refine main _ (initAdj rows) ?_ r2 h
    intro y hy
    unfold initAdj at hy
    rcases List.mem_map.mp hy with ⟨r, hr, hry⟩
    subst hry
    exact ⟨r, hr, rfl, Or.inl rfl⟩

theorem gustRow_sped (r : Row) : (gustRow r).sped = r.sped := by
  unfold gustRow
  split
  · split <;> rfl
  · rfl

theorem gustRow_drct (r : Row) : (gustRow r).drct = r.drct := by
  unfold gustRow
  split
  · split <;> rfl
  · rfl

/-- C3: every observation of the final processed stream whose raw speed is
at most 2.3 is an exact calm: its speed field is exactly zero and its
direction exactly zero.  This holds for any peak detection, any changepoint
set and any quantile mapping, because the calm standardization runs before
resampling and correction and no later stage raises a direction or changes
a raw speed. -/
theorem c3_calm_normalization (dObv dDip dFine : List (ℤ × ℚ) → List ℕ)
    (f : ℕ → Row → ℚ) (cptDates : List ℤ) (raws : List RawObs) :
    ∀ r ∈ (readAndProcessCsv dObv dDip dFine f cptDates raws).1,
      r.sped ≤ 23/10 → r.sped = 0 ∧ r.drct = some 0 := by
  intro r hr
  unfold readAndProcessCsv at hr
  simp only at hr
  rcases List.mem_map.mp hr with ⟨r5, h5, hr5⟩
  rcases adjRel f cptDates _ r5 h5 with ⟨r4, h4, hsp45, hdr45⟩
  have h4b : r4 ∈ filterToHour
      (gustFix (calmNorm (dropContradictory (speedCeiling raws)))) :=
    filterSpurious_fst_sub dObv dDip dFine _ r4 h4
  rcases List.mem_map.mp (filterToHour_sub _ r4 h4b) with ⟨r3, h3, hr34⟩
  rcases List.mem_map.mp h3 with ⟨r2, h2, hr23⟩
  rcases List.mem_map.mp h2 with ⟨r1, _, hr12⟩
  have hP2 : r2.sped ≤ 23/10 → r2.sped = 0 ∧ r2.drct = some 0 := by
    subst hr12
    unfold calmNormRow
    split
    · intro _; exact ⟨rfl, rfl⟩
    · next hgt => intro hc; exact absurd hc hgt
  have hP3 : r3.sped ≤ 23/10 → r3.sped = 0 ∧ r3.drct = some 0 := by
    subst hr23
    rw [gustRow_sped, gustRow_drct]
    exact hP2
  have hP4 : r4.sped ≤ 23/10 → r4.sped = 0 ∧ r4.drct = some 0 := by
    subst hr34
    exact hP3
  intro hle
  have hsped : r.sped = r4.sped := by rw [← hr5]; exact hsp45
  have hP := hP4 (by rw [← hsped]; exact hle)
  refine ⟨by rw [hsped]; exact hP.1, ?_⟩
  have hdr : r.drct = r5.drct := by rw [← hr5]
  rcases hdr45 with h | h
  · rw [hdr, h]; exact hP.2
  · rw [hdr, h]

/-- C3 witness: a raw record with speed one and direction ninety is
standardized to an exact calm by the full pipeline. -/
theorem c3_calm_normalization_witness :
    (⟨1, 0, 0, 0, some 0, none, 0, some 1980⟩ : Row).sped = 0 ∧
      (⟨1, 0, 0, 0, some 0, none, 0, some 1980⟩ : Row).drct = some 0 := by
  have h1 : speedCeiling [⟨1, 0, some 1, some 90, none⟩] =
      [⟨1, 0, 0, 1, some 90, none, 0, none⟩] := by
    unfold speedCeiling
    rw [List.filterMap_cons]
    norm_num
  have h2 : dropContradictory [⟨1, 0, 0, 1, some 90, none, 0, none⟩] =
      [⟨1, 0, 0, 1, some 90, none, 0, none⟩] := by decide
  have h3 : calmNorm [⟨1, 0, 0, 1, some 90, none, 0, none⟩] =
      [⟨1, 0, 0, 0, some 0, none, 0, none⟩] := by
    unfold calmNorm calmNormRow
    rw [List.map_cons]
    norm_num
  have h4 : gustFix [⟨1, 0, 0, 0, some 0, none, 0, none⟩] =
      [⟨1, 0, 0, 0, some 0, none, 0, none⟩] := by decide
  have h5 : filterToHour [⟨1, 0, 0, 0, some 0, none, 0, none⟩] =
      [⟨1, 0, 0, 0, some 0, none, 0, none⟩] := by
    unfold filterToHour
    have hm : ([⟨1, 0, 0, 0, some 0, none, 0, none⟩] : List Row).map setTs =
        [⟨1, 0, 0, 0, some 0, none, 0, none⟩] := by
      have hr0 : roundH 0 = 0 := by norm_num [roundH, rnd]
      simp [setTs, hr0]
    rw [hm]
    decide
  have hev : (readAndProcessCsv (fun _ => []) (fun _ => []) (fun _ => [])
      (fun _ r => r.sped) [] [⟨1, 0, some 1, some 90, none⟩]).1 =
      [⟨1, 0, 0, 0, some 0, none, 0, some 1980⟩] := by
    unfold readAndProcessCsv
    rw [h1, h2, h3, h4, h5]
    decide
  refine c3_calm_normalization (fun _ => []) (fun _ => []) (fun _ => [])
    (fun _ r => r.sped) [] [⟨1, 0, some 1, some 90, none⟩]
    ⟨1, 0, 0, 0, some 0, none, 0, some 1980⟩ ?_ ?_
  · rw [hev]; exact List.mem_singleton.mpr rfl
  · norm_num

/-- C5: the spurious filter loses audit data.  On a station whose series
has one detected dip and no detected spikes, the dip observation is removed
from the clean output but the returned spikes and dips frames are both
empty: the final else branch of filter_spurious overwrites the dips frame
with an empty placeholder slice instead of the spikes frame.  Here the
detection functions return what scipy find_peaks returns on the speed
series 40, 0, 40 with the source arguments: no obvious spikes, one dip at
position one, no fine spikes. -/
theorem c5_spurious_audit_loss :
    (filterSpurious (fun _ => []) (fun _ => [1]) (fun _ => [])
      [⟨1, 0, 0, 40, some 90, none, 0, none⟩,
       ⟨1, 60, 60, 0, some 0, none, 0, none⟩,
       ⟨1, 120, 120, 40, some 90, none, 0, none⟩] =
      ([⟨1, 0, 0, 40, some 90, none, 0, none⟩,
        ⟨1, 120, 120, 40, some 90, none, 0, none⟩], [], [])) ∧
    (⟨1, 60, 60, 0, some 0, none, 0, none⟩ : Row) ∈
      ([⟨1, 0, 0, 40, some 90, none, 0, none⟩,
        ⟨1, 60, 60, 0, some 0, none, 0, none⟩,
        ⟨1, 120, 120, 40, some 90, none, 0, none⟩] : List Row) ∧
    (⟨1, 60, 60, 0, some 0, none, 0, none⟩ : Row) ∉
      ([⟨1, 0, 0, 40, some 90, none, 0, none⟩,
        ⟨1, 120, 120, 40, some 90, none, 0, none⟩] : List Row) := by
  refine ⟨?_, by decide, by decide⟩
  unfold filterSpurious seriesOf tsAt removeTs negSer
  decide

theorem exceed_entry_mono (cw : List ℚ) {t u : ℚ} (h : t ≤ u) :
    rnd4 (((cw.countP (fun c => decide (u < c))) : ℚ) / (cw.length : ℚ)) * 100 ≤
    rnd4 (((cw.countP (fun c => decide (t < c))) : ℚ) / (cw.length : ℚ)) * 100 := by
  have hcount : cw.countP (fun c => decide (u < c)) ≤
      cw.countP (fun c => decide (t < c)) := by
    apply List.countP_mono_left
    intro a _ ha
    rw [decide_eq_true_eq] at ha ⊢
    exact lt_of_le_of_lt h ha
  have hcast : ((cw.countP (fun c => decide (u < c)) : ℕ) : ℚ) ≤
      ((cw.countP (fun c => decide (t < c)) : ℕ) : ℚ) := by
    exact_mod_cast hcount
  have hdiv := div_le_div_of_nonneg_right hcast
    (Nat.cast_nonneg cw.length : (0:ℚ) ≤ cw.length)
  have hr := rnd4_mono hdiv
  nlinarith [hr]

/-- C9: for any station data, any sine model and any runway direction, the
exceedance percentages computed at the three fixed regulatory thresholds
are non-increasing in the threshold. -/
theorem c9_exceedance_monotone (sinDeg : ℚ → ℚ) (winds : List (ℚ × ℚ))
    (d : ℚ) :
    (exceedanceFrequencies sinDeg winds d exceedThresholds).getD 1 0 ≤
      (exceedanceFrequencies sinDeg winds d exceedThresholds).getD 0 0 ∧
    (exceedanceFrequencies sinDeg winds d exceedThresholds).getD 2 0 ≤
      (exceedanceFrequencies sinDeg winds d exceedThresholds).getD 1 0 := by
  have hth : exceedThresholds =
      [rnd2 ((21/2) * (115078/100000)), rnd2 (13 * (115078/100000)),
       rnd2 (16 * (115078/100000))] := rfl
  simp only [exceedanceFrequencies, hth, List.map_cons, List.map_nil,
    List.getD_cons_zero, List.getD_cons_succ]
  constructor
  · exact exceed_entry_mono _ (rnd2_mono (by norm_num))
  · exact exceed_entry_mono _ (rnd2_mono (by norm_num))

/-- Modelled from the spec wording, for comparison with the source filter:
a monthly mean exceeds five standard deviations of its station-month
distribution exactly when the value is positive and its square exceeds 25
times the sample variance of that distribution; this is the square-root
free encoding over rationals of wep gt 5 std. -/
def wepExceedsSpec (means : List WepRec) (r : WepRec) : Prop :=
  0 < r.wep ∧ 25 * svar ((means.filter (fun m =>
    decide (m.sid = r.sid ∧ m.month = r.month))).map WepRec.wep) < r.wep ^ 2

/-- C10 counterexample: an all-calm station observed in the same month of
two years yields two monthly mean records of value zero.  Neither exceeds
five standard deviations of the station-month distribution (both equal its
mean and the deviation is zero), yet the source discards both, because its
filter keeps only records strictly below five times the standard deviation
and zero is not strictly below zero. -/
theorem c10_wep_counterexample :
    (⟨1, 2000, 1, 0⟩ : WepRec) ∈ meanWep 1
      [⟨1, 2000, 1, some 0, some 0⟩, ⟨1, 2001, 1, some 0, some 0⟩] ∧
    ¬ wepExceedsSpec (meanWep 1
      [⟨1, 2000, 1, some 0, some 0⟩, ⟨1, 2001, 1, some 0, some 0⟩])
      ⟨1, 2000, 1, 0⟩ ∧
    (⟨1, 2000, 1, 0⟩ : WepRec) ∉ processWep 1
      [⟨1, 2000, 1, some 0, some 0⟩, ⟨1, 2001, 1, some 0, some 0⟩] := by
  have hst : (([⟨1, 2000, 1, some 0, some 0⟩,
      ⟨1, 2001, 1, some 0, some 0⟩] : List EObs).filter
        (fun r => r.ws ≠ none ∧ r.wd ≠ none)) =
      [⟨1, 2000, 1, some 0, some 0⟩, ⟨1, 2001, 1, some 0, some 0⟩] := by decide
  have hkeys : ((([⟨1, 2000, 1, some 0, some 0⟩,
      ⟨1, 2001, 1, some 0, some 0⟩] : List EObs).map
        (fun r => (r.sid, r.year, r.month))).dedup) =
      [(1, 2000, 1), (1, 2001, 1)] := by decide
  have hgrp1 : (([⟨1, 2000, 1, some 0, some 0⟩,
      ⟨1, 2001, 1, some 0, some 0⟩] : List EObs).filter
        (fun r => decide ((r.sid, r.year, r.month) = (1, 2000, 1)))) =
      [⟨1, 2000, 1, some 0, some 0⟩] := by decide
  have hgrp2 : (([⟨1, 2000, 1, some 0, some 0⟩,
      ⟨1, 2001, 1, some 0, some 0⟩] : List EObs).filter
        (fun r => decide ((r.sid, r.year, r.month) = (1, 2001, 1)))) =
      [⟨1, 2001, 1, some 0, some 0⟩] := by decide
  have hrnd0 : rnd 0 = 0 := by norm_num [rnd]
  have hmean : meanWep 1
      [⟨1, 2000, 1, some 0, some 0⟩, ⟨1, 2001, 1, some 0, some 0⟩] =
      [⟨1, 2000, 1, 0⟩, ⟨1, 2001, 1, 0⟩] := by
    simp only [meanWep]
    rw [hst, hkeys]
    simp only [List.map_cons, List.map_nil]
    rw [hgrp1, hgrp2]
    simp only [List.map_cons, List.map_nil, List.sum_cons, List.sum_nil,
      List.length_cons, List.length_nil, Option.getD_some]
    norm_num [hrnd0]
  refine ⟨?_, ?_, ?_⟩
  · rw [hmean]
    exact List.mem_cons_self _ _
  · intro hc
    exact absurd hc.1 (lt_irrefl 0)
  · intro hc
    simp only [processWep] at hc
    rw [hmean] at hc
    have h2 := (List.mem_filter.mp hc).2
    rw [decide_eq_true_eq] at h2
    have hfil : (([⟨1, 2000, 1, 0⟩, ⟨1, 2001, 1, 0⟩] : List WepRec).filter
        (fun m => decide (m.sid = (⟨1, 2000, 1, 0⟩ : WepRec).sid ∧
          m.month = (⟨1, 2000, 1, 0⟩ : WepRec).month))) =
        [⟨1, 2000, 1, 0⟩, ⟨1, 2001, 1, 0⟩] := by decide
    rw [hfil] at h2
    rcases h2.2 with h3 | h3
    · exact absurd h3 (lt_irrefl 0)
    · norm_num [svar] at h3

/-- C10 amended: a monthly mean record is emitted by process_wep exactly
when its station-month group holds at least two monthly means and the
record is strictly below five sample standard deviations of that group
(equivalently over rationals: it is negative, or its square is less than
25 times the sample variance).  In particular every station-month with a
single record is discarded, its pandas std being NaN. -/
theorem c10_wep_outlier_filter (kappa : ℚ) (stations : List EObs)
    (r : WepRec) :
    r ∈ processWep kappa stations ↔
      r ∈ meanWep kappa stations ∧
      1 < ((meanWep kappa stations).filter (fun m =>
        decide (m.sid = r.sid ∧ m.month = r.month))).length ∧
      (r.wep < 0 ∨ r.wep ^ 2 < 25 * svar
        (((meanWep kappa stations).filter (fun m =>
          decide (m.sid = r.sid ∧ m.month = r.month))).map WepRec.wep)) := by
  simp only [processWep, List.mem_filter, decide_eq_true_eq, List.length_map,
    and_assoc]

theorem decadeSpan_pos (dyear : ℕ) : 0 < decadeSpan dyear := by
  unfold decadeSpan
  have hall : ∀ y, 365 ≤ daysInYear y := by
    intro y; unfold daysInYear; split <;> norm_num
  have hle : ((List.range 10).map (fun _ => (365:ℕ))).sum ≤
      ((List.range 10).map (fun k => daysInYear (dyear + k))).sum :=
    List.sum_le_sum (fun i _ => hall _)
  have h2 : ((List.range 10).map (fun _ => (365:ℕ))).sum = 3650 := by decide
  omega

theorem qual_congr (st : List SObs) (r1 : ℚ) :
    ((st.map dateOf).dedup.countP (fun d =>
      decide (((st.countP (fun x => decide (dateOf x = d)) : ℕ) : ℚ) / 24 > r1))) =
    ((st.map dateOf).dedup.countP (fun d =>
      decide (24 * r1 < ((st.countP (fun x => decide (dateOf x = d)) : ℕ) : ℚ)))) := by
  apply List.countP_congr
  intro d _
  simp only [decide_eq_true_eq]
  rw [gt_iff_lt, lt_div_iff₀ (by norm_num : (0:ℚ) < 24), mul_comm]

/-- C7 amended: the sufficiency check returns true exactly when the probed
subset is nonempty and the number of days whose observation count strictly
exceeds r1 of the 24 hourly slots strictly exceeds r2 of ndays, where
ndays is the day difference spanned by the decade of the first observation
(3651 or 3652 days); an empty subset yields false rather than an error.
Both thresholds are strict in the source, not the at-least comparisons of
the claim. -/
theorem c7_sufficiency (prelim : Bool) (r1 r2 : ℚ) (station : List SObs) :
    checkSufficientData prelim r1 r2 station = true ↔
      ∃ o rest, effSub prelim station = o :: rest ∧
        r2 * ((decadeSpan (o.year / 10 * 10) : ℕ) : ℚ) <
          (((effSub prelim station).map dateOf).dedup.countP (fun d =>
            decide (24 * r1 < (((effSub prelim station).countP
              (fun x => decide (dateOf x = d))) : ℚ))) : ℕ) := by
  unfold checkSufficientData
  cases h : effSub prelim station with
  | nil =>
    constructor
    · intro hc; exact absurd hc (by simp)
    · rintro ⟨o, rest, heq, _⟩
      exact absurd heq (by simp)
  | cons o rest =>
    have hn : (0:ℚ) < ((decadeSpan (o.year / 10 * 10) : ℕ) : ℚ) := by
      exact_mod_cast decadeSpan_pos _
    rw [decide_eq_true_eq]
    constructor
    · intro hlt
      refine ⟨o, rest, rfl, ?_⟩
      rw [← qual_congr]
      rw [gt_iff_lt, lt_div_iff₀ hn] at hlt
      exact hlt
    · rintro ⟨o2, rest2, heq, hlt⟩
      injection heq with ho hrest
      subst ho
      rw [← qual_congr] at hlt
      rw [gt_iff_lt, lt_div_iff₀ hn]
      exact hlt

/-- Modelled from the spec wording for comparison with the source: the
sufficiency criterion with non-strict thresholds, reading at least r1 of
the 24 hourly slots and at least r2 of the days in the period, the period
length being the day span of the first observation's decade. -/
def suffSpec (r1 r2 : ℚ) (station : List SObs) : Prop :=
  match station with
  | [] => False
  | o :: rest =>
    r2 * ((decadeSpan (o.year / 10 * 10) : ℕ) : ℚ) ≤
      ((((o :: rest).map dateOf).dedup).countP (fun d =>
        decide (r1 * 24 ≤ ((((o :: rest).countP
          (fun x => decide (dateOf x = d))) : ℕ) : ℚ))) : ℕ)

/-- C7 counterexample: one observation on a single day of the 1990s, with
the day threshold at its default one quarter and the day fraction
threshold instantiated at zero.  Zero days meet the daily bar, which is at
least zero percent of the period, so the claimed criterion holds; the
source check is false because it demands strictly more than r2 of the
days.  The claimed if-and-only-if therefore fails. -/
theorem c7_sufficiency_counterexample :
    suffSpec (1/4) 0 [⟨1990, 0, 0⟩] ∧
    checkSufficientData false (1/4) 0 [⟨1990, 0, 0⟩] = false := by
  constructor
  · simp only [suffSpec]
    rw [zero_mul]
    exact Nat.cast_nonneg _
  · unfold checkSufficientData
    show decide ((((([⟨1990, 0, 0⟩] : List SObs).map dateOf).dedup.countP (fun d =>
      decide (((([⟨1990, 0, 0⟩] : List SObs).countP
        (fun x => decide (dateOf x = d)) : ℕ) : ℚ) / 24 > 1/4)) : ℕ) : ℚ) /
        ((decadeSpan (1990 / 10 * 10) : ℕ) : ℚ) > 0) = false
    have hq : (([⟨1990, 0, 0⟩] : List SObs).map dateOf).dedup.countP (fun d =>
        decide (((([⟨1990, 0, 0⟩] : List SObs).countP
          (fun x => decide (dateOf x = d)) : ℕ) : ℚ) / 24 > 1/4)) = 0 := by
      rw [List.countP_eq_zero]
      intro d hd
      have hded : (([⟨1990, 0, 0⟩] : List SObs).map dateOf).dedup =
          [((1990:ℕ), (0:ℕ))] := by decide
      rw [hded] at hd
      have hd2 : d = (1990, 0) := by simpa using hd
      subst hd2
      rw [show (([⟨1990, 0, 0⟩] : List SObs).countP
        (fun x => decide (dateOf x = (1990, 0)))) = 1 from by decide]
      simp only [decide_eq_true_eq, not_lt, gt_iff_lt]
      norm_num
    rw [hq]
    simp only [decide_eq_false_iff_not, gt_iff_lt, not_lt]
    norm_num

/-- C8: the calm table does not mirror the rose grouping keys when a group
has no calm observation.  A station with two cleaned non-calm observations
owns the summary rose key (7, month 0, decade none), but process_calms
emits no record at all for it: the inner merge with the calm-only counts
drops every zero-calm group, so the claimed one-to-one join fails (and the
dashboard later reads percent values of this join unconditionally). -/
theorem c8_calm_join_bug :
    (⟨7, 0, "none"⟩ : RoseKey) ∈ ([⟨7, 0, "none"⟩] : List RoseKey) ∧
    processCalms
      [⟨7, 3, "2010-2019", some 5, some 90⟩,
       ⟨7, 4, "2010-2019", some 7, some 180⟩]
      [⟨7, 0, "none"⟩] = [] := by
  refine ⟨by decide, ?_⟩
  decide

theorem sum_map_add {α : Type} (l : List α) (f g : α → ℕ) :
    (l.map (fun a => f a + g a)).sum = (l.map f).sum + (l.map g).sum := by
  induction l with
  | nil => rfl
  | cons a t ih => simp [ih]; omega

theorem sum_map_ite_countP {α : Type} (cells : List α) (p : α → Bool) :
    (cells.map (fun c => if p c then 1 else 0)).sum = cells.countP p := by
  induction cells with
  | nil => rfl
  | cons a t ih =>
    rw [List.map_cons, List.sum_cons, List.countP_cons, ih]
    omega

/-- If every element of a list hits exactly one cell, the cell counts sum
to the list length. -/
theorem countP_partition {α β : Type} (L : List α) (cells : List β)
    (hit : α → β → Bool)
    (h1 : ∀ x ∈ L, cells.countP (fun cb => hit x cb) = 1) :
    (cells.map (fun cb => L.countP (fun x => hit x cb))).sum = L.length := by
  induction L with
  | nil => simp
  | cons x t ih =>
    have hx := h1 x (List.mem_cons_self _ _)
    have ht := ih (fun y hy => h1 y (List.mem_cons_of_mem _ hy))
    have hsplit : (cells.map (fun cb => (x :: t).countP (fun y => hit y cb))).sum =
        (cells.map (fun cb => t.countP (fun y => hit y cb))).sum +
        (cells.map (fun cb => if hit x cb then 1 else 0)).sum := by
      rw [← sum_map_add]
      apply congrArg
      apply List.map_congr_left
      intro cb _
      rw [List.countP_cons]
    rw [hsplit, ht, sum_map_ite_countP, hx, List.length_cons]

theorem countP_flatMap {α β : Type} (l : List α) (g : α → List β)
    (p : β → Bool) :
    (l.flatMap g).countP p = (l.map (fun a => (g a).countP p)).sum := by
  induction l with
  | nil => rfl
  | cons a t ih =>
    rw [List.flatMap_cons, List.countP_append, List.map_cons, List.sum_cons, ih]

theorem sum_flatMap_q {α β : Type} (l : List α) (g : α → List β)
    (f : β → ℚ) :
    ((l.flatMap g).map f).sum = (l.map (fun a => ((g a).map f).sum)).sum := by
  induction l with
  | nil => rfl
  | cons a t ih =>
    rw [List.flatMap_cons, List.map_append, List.sum_append, List.map_cons,
      List.sum_cons, ih]

theorem sum_flatMap_n {α β : Type} (l : List α) (g : α → List β)
    (f : β → ℕ) :
    ((l.flatMap g).map f).sum = (l.map (fun a => ((g a).map f).sum)).sum := by
  induction l with
  | nil => rfl
  | cons a t ih =>
    rw [List.flatMap_cons, List.map_append, List.sum_append, List.map_cons,
      List.sum_cons, ih]

theorem sum_map_ite_eq (l : List ℚ) (b : ℚ) (v : ℕ) (hnd : l.Nodup)
    (hmem : b ∈ l) :
    (l.map (fun c => if b = c then v else 0)).sum = v := by
  induction l with
  | nil => exact absurd hmem (List.not_mem_nil b)
  | cons a t ih =>
    rw [List.map_cons, List.sum_cons]
    rcases List.mem_cons.mp hmem with rfl | hmt
    · rw [if_pos rfl]
      have hz : (t.map (fun c => if b = c then v else 0)).sum = 0 := by
        have : ∀ c ∈ t, (if b = c then v else 0) = 0 := by
          intro c hc
          rw [if_neg]
          intro hbc
          exact (List.nodup_cons.mp hnd).1 (hbc ▸ hc)
        calc (t.map (fun c => if b = c then v else 0)).sum
            = (t.map (fun _ => (0:ℕ))).sum := by
              apply congrArg
              exact List.map_congr_left this
          _ = 0 := by simp
      rw [hz]
      omega
    · rw [if_neg, ih (List.nodup_cons.mp hnd).2 hmt]
      · omega
      · intro hba
        exact (List.nodup_cons.mp hnd).1 (hba ▸ hmt)

theorem rnd2_sum_err : ∀ (l : List ℚ),
    |(l.map rnd2).sum - l.sum| ≤ (l.length : ℚ) / 200 := by
  intro l
  induction l with
  | nil => simp
  | cons a t ih =>
    rw [List.map_cons, List.sum_cons, List.sum_cons, List.length_cons]
    have h1 := abs_rnd2_sub_le a
    calc |rnd2 a + (t.map rnd2).sum - (a + t.sum)|
        = |(rnd2 a - a) + ((t.map rnd2).sum - t.sum)| := by ring_nf
      _ ≤ |rnd2 a - a| + |(t.map rnd2).sum - t.sum| := abs_add _ _
      _ ≤ 1/200 + (t.length : ℚ) / 200 := add_le_add h1 ih
      _ = ((t.length : ℚ) + 1) / 200 := by ring
      _ = (((t.length : ℕ) + 1 : ℕ) : ℚ) / 200 := by push_cast; ring

/-- A speed value strictly inside the band structure lies in exactly one of
the six bands; the bands share their boundary points, which is why the
boundary speeds are excluded here. -/
theorem bucket_unique (ws : ℚ) (hlo : 1/1000 ≤ ws) (hhi : ws ≤ 1000)
    (h6 : ws ≠ 6) (h10 : ws ≠ 10) (h14 : ws ≠ 14) (h18 : ws ≠ 18)
    (h22 : ws ≠ 22) :
    speedRanges.countP (inBucket ws) = 1 := by
  by_cases c6 : ws < 6
  · have e1 : inBucket ws ("0-6", 1/1000, 6) = true :=
      decide_eq_true ⟨hlo, le_of_lt c6⟩
    have e2 : inBucket ws ("6-10", 6, 10) = false :=
      decide_eq_false (fun h => by dsimp only at h; linarith [h.1])
    have e3 : inBucket ws ("10-14", 10, 14) = false :=
      decide_eq_false (fun h => by dsimp only at h; linarith [h.1])
    have e4 : inBucket ws ("14-18", 14, 18) = false :=
      decide_eq_false (fun h => by dsimp only at h; linarith [h.1])
    have e5 : inBucket ws ("18-22", 18, 22) = false :=
      decide_eq_false (fun h => by dsimp only at h; linarith [h.1])
    have e6 : inBucket ws ("22+", 22, 1000) = false :=
      decide_eq_false (fun h => by dsimp only at h; linarith [h.1])
    simp only [speedRanges, List.countP_cons, List.countP_nil, e1, e2, e3, e4, e5, e6]; simp
  · have c6b : 6 < ws := lt_of_le_of_ne (not_lt.mp c6) (Ne.symm h6)
    by_cases c10 : ws < 10
    · have e1 : inBucket ws ("0-6", 1/1000, 6) = false :=
        decide_eq_false (fun h => by dsimp only at h; linarith [h.2])
      have e2 : inBucket ws ("6-10", 6, 10) = true :=
        decide_eq_true (by dsimp only; exact ⟨by linarith, by linarith⟩)
      have e3 : inBucket ws ("10-14", 10, 14) = false :=
        decide_eq_false (fun h => by dsimp only at h; linarith [h.1])
      have e4 : inBucket ws ("14-18", 14, 18) = false :=
        decide_eq_false (fun h => by dsimp only at h; linarith [h.1])
      have e5 : inBucket ws ("18-22", 18, 22) = false :=
        decide_eq_false (fun h => by dsimp only at h; linarith [h.1])
      have e6 : inBucket ws ("22+", 22, 1000) = false :=
        decide_eq_false (fun h => by dsimp only at h; linarith [h.1])
      simp only [speedRanges, List.countP_cons, List.countP_nil, e1, e2, e3, e4, e5, e6]; simp
    · have c10b : 10 < ws := lt_of_le_of_ne (not_lt.mp c10) (Ne.symm h10)
      by_cases c14 : ws < 14
      · have e1 : inBucket ws ("0-6", 1/1000, 6) = false :=
          decide_eq_false (fun h => by dsimp only at h; linarith [h.2])
        have e2 : inBucket ws ("6-10", 6, 10) = false :=
          decide_eq_false (fun h => by dsimp only at h; linarith [h.2])
        have e3 : inBucket ws ("10-14", 10, 14) = true :=
          decide_eq_true (by dsimp only; exact ⟨by linarith, by linarith⟩)
        have e4 : inBucket ws ("14-18", 14, 18) = false :=
          decide_eq_false (fun h => by dsimp only at h; linarith [h.1])
        have e5 : inBucket ws ("18-22", 18, 22) = false :=
          decide_eq_false (fun h => by dsimp only at h; linarith [h.1])
        have e6 : inBucket ws ("22+", 22, 1000) = false :=
          decide_eq_false (fun h => by dsimp only at h; linarith [h.1])
        simp only [speedRanges, List.countP_cons, List.countP_nil, e1, e2, e3, e4, e5, e6]; simp
      · have c14b : 14 < ws := lt_of_le_of_ne (not_lt.mp c14) (Ne.symm h14)
        by_cases c18 : ws < 18
        · have e1 : inBucket ws ("0-6", 1/1000, 6) = false :=
            decide_eq_false (fun h => by dsimp only at h; linarith [h.2])
          have e2 : inBucket ws ("6-10", 6, 10) = false :=
            decide_eq_false (fun h => by dsimp only at h; linarith [h.2])
          have e3 : inBucket ws ("10-14", 10, 14) = false :=
            decide_eq_false (fun h => by dsimp only at h; linarith [h.2])
          have e4 : inBucket ws ("14-18", 14, 18) = true :=
            decide_eq_true (by dsimp only; exact ⟨by linarith, by linarith⟩)
          have e5 : inBucket ws ("18-22", 18, 22) = false :=
            decide_eq_false (fun h => by dsimp only at h; linarith [h.1])
          have e6 : inBucket ws ("22+", 22, 1000) = false :=
            decide_eq_false (fun h => by dsimp only at h; linarith [h.1])
          simp only [speedRanges, List.countP_cons, List.countP_nil, e1, e2, e3, e4, e5, e6]; simp
        · have c18b : 18 < ws := lt_of_le_of_ne (not_lt.mp c18) (Ne.symm h18)
          by_cases c22 : ws < 22
          · have e1 : inBucket ws ("0-6", 1/1000, 6) = false :=
              decide_eq_false (fun h => by dsimp only at h; linarith [h.2])
            have e2 : inBucket ws ("6-10", 6, 10) = false :=
              decide_eq_false (fun h => by dsimp only at h; linarith [h.2])
            have e3 : inBucket ws ("10-14", 10, 14) = false :=
              decide_eq_false (fun h => by dsimp only at h; linarith [h.2])
            have e4 : inBucket ws ("14-18", 14, 18) = false :=
              decide_eq_false (fun h => by dsimp only at h; linarith [h.2])
            have e5 : inBucket ws ("18-22", 18, 22) = true :=
              decide_eq_true (by dsimp only; exact ⟨by linarith, by linarith⟩)
            have e6 : inBucket ws ("22+", 22, 1000) = false :=
              decide_eq_false (fun h => by dsimp only at h; linarith [h.1])
            simp only [speedRanges, List.countP_cons, List.countP_nil, e1, e2, e3, e4, e5, e6]; simp
          · have c22b : 22 < ws := lt_of_le_of_ne (not_lt.mp c22) (Ne.symm h22)
            have e1 : inBucket ws ("0-6", 1/1000, 6) = false :=
              decide_eq_false (fun h => by dsimp only at h; linarith [h.2])
            have e2 : inBucket ws ("6-10", 6, 10) = false :=
              decide_eq_false (fun h => by dsimp only at h; linarith [h.2])
            have e3 : inBucket ws ("10-14", 10, 14) = false :=
              decide_eq_false (fun h => by dsimp only at h; linarith [h.2])
            have e4 : inBucket ws ("14-18", 14, 18) = false :=
              decide_eq_false (fun h => by dsimp only at h; linarith [h.2])
            have e5 : inBucket ws ("18-22", 18, 22) = false :=
              decide_eq_false (fun h => by dsimp only at h; linarith [h.2])
            have e6 : inBucket ws ("22+", 22, 1000) = true :=
              decide_eq_true (by dsimp only; exact ⟨by linarith, by linarith⟩)
            simp only [speedRanges, List.countP_cons, List.countP_nil, e1, e2, e3, e4, e5, e6]; simp

theorem fineClasses_nodup : fineClasses.Nodup := by
  unfold fineClasses
  exact @List.Nodup.map ℕ ℚ (List.range 36) (fun n => (n : ℚ))
    (fun a b hab => by dsimp only at hab; exact_mod_cast hab)
    (List.nodup_range 36)

theorem coarseClasses_nodup : coarseClasses.Nodup := by
  unfold coarseClasses
  refine @List.Nodup.map ℕ ℚ (List.range 8) (fun n => (n : ℚ) * (9/2))
    ?_ (List.nodup_range 8)
  intro a b hab
  have h2 : (a : ℚ) = (b : ℚ) :=
    mul_right_cancel₀ (by norm_num : (9:ℚ)/2 ≠ 0) hab
  exact_mod_cast h2

theorem dirClassFine_mem (wd : ℚ) : dirClassFine wd ∈ fineClasses := by
  unfold dirClassFine fineClasses
  split
  · next h =>
    set k := ⌈(wd - 5) / 10⌉ with hk
    have hk1 : 0 < k := Int.ceil_pos.mpr (by
      have h3 : (0:ℚ) < (wd - 5) / 10 := by
        apply div_pos <;> linarith [h.1]
      exact h3)
    have hk2 : k ≤ 35 := Int.ceil_le.mpr (by
      rw [div_le_iff₀ (by norm_num : (0:ℚ) < 10)]
      push_cast
      linarith [h.2])
    apply List.mem_map.mpr
    refine ⟨k.toNat, ?_, ?_⟩
    · exact List.mem_range.mpr (by omega)
    · have h4 : ((k.toNat : ℤ) : ℚ) = (k : ℚ) := by
        rw [Int.toNat_of_nonneg (by omega)]
      push_cast at h4 ⊢
      exact h4
  · apply List.mem_map.mpr
    refine ⟨0, ?_, ?_⟩
    · exact List.mem_range.mpr (by norm_num)
    · norm_num

theorem dirClassCoarse_mem (wd : ℚ) : dirClassCoarse wd ∈ coarseClasses := by
  unfold dirClassCoarse coarseClasses
  split
  · next h =>
    set k := ⌈(wd - 45/2) / 45⌉ with hk
    have hk1 : 0 < k := Int.ceil_pos.mpr (by
      apply div_pos <;> linarith [h.1])
    have hk2 : k ≤ 7 := Int.ceil_le.mpr (by
      rw [div_le_iff₀ (by norm_num : (0:ℚ) < 45)]
      push_cast
      linarith [h.2])
    apply List.mem_map.mpr
    refine ⟨k.toNat, ?_, ?_⟩
    · exact List.mem_range.mpr (by omega)
    · have hcast : ((k.toNat : ℤ) : ℚ) = (k : ℚ) := by
        rw [Int.toNat_of_nonneg (by omega)]
      push_cast at hcast ⊢
      rw [hcast]
      ring
  · apply List.mem_map.mpr
    refine ⟨0, ?_, ?_⟩
    · exact List.mem_range.mpr (by norm_num)
    · norm_num

/-- The direction class and speed band cells of one binning resolution. -/
def cellsOf (classes : List ℚ) : List (ℚ × (String × ℚ × ℚ)) :=
  classes.flatMap (fun c => speedRanges.map (fun b => (c, b)))

theorem cellsOf_length (classes : List ℚ) :
    (cellsOf classes).length = classes.length * 6 := by
  induction classes with
  | nil => rfl
  | cons c t ih =>
    unfold cellsOf at ih ⊢
    rw [List.flatMap_cons, List.length_append, ih, List.length_map]
    simp [speedRanges]
    ring

theorem cellsOf_map {γ : Type} (classes : List ℚ)
    (f : ℚ × (String × ℚ × ℚ) → γ) :
    (cellsOf classes).map f =
      classes.flatMap (fun c => speedRanges.map (fun b => f (c, b))) := by
  unfold cellsOf
  rw [List.map_flatMap]
  apply congrArg
  funext c
  rw [List.map_map]
  rfl

theorem cnt_eq (dc : ℚ → ℚ) (st : List WObs) (c : ℚ) (b : String × ℚ × ℚ) :
    ((st.filter (fun r => decide (dc r.wd = c))).filter
      (fun r => inBucket r.ws b)).length =
    st.countP (fun x => decide (dc x.wd = c) && inBucket x.ws b) := by
  rw [← List.countP_eq_length_filter, List.countP_filter]
  apply List.countP_congr
  intro x _
  rw [Bool.and_comm]

theorem chunkRes_count (dc : ℚ → ℚ) (classes : List ℚ) (coarse : Bool)
    (st : List WObs) :
    (chunkRes dc classes coarse st).map RoseRow.count =
      (cellsOf classes).map (fun cb =>
        st.countP (fun x => decide (dc x.wd = cb.1) && inBucket x.ws cb.2)) := by
  rw [cellsOf_map]
  unfold chunkRes
  rw [List.map_flatMap]
  apply congrArg
  funext c
  rw [List.map_map]
  apply List.map_congr_left
  intro b _
  exact cnt_eq dc st c b

theorem chunkRes_freq (dc : ℚ → ℚ) (classes : List ℚ) (coarse : Bool)
    (st : List WObs) :
    (chunkRes dc classes coarse st).map RoseRow.freq =
      (cellsOf classes).map (fun cb =>
        if 0 < st.length then
          rnd2 (((st.countP (fun x =>
            decide (dc x.wd = cb.1) && inBucket x.ws cb.2)) : ℚ) /
            (st.length : ℚ) * 100)
        else 0) := by
  rw [cellsOf_map]
  unfold chunkRes
  rw [List.map_flatMap]
  apply congrArg
  funext c
  rw [List.map_map]
  apply List.map_congr_left
  intro b _
  show (if 0 < st.length then rnd2 ((((st.filter (fun r =>
      decide (dc r.wd = c))).filter (fun r => inBucket r.ws b)).length : ℚ) /
      (st.length : ℚ) * 100) else 0) = _
  rw [cnt_eq dc st c b]

/-- The number of cells a single observation falls in is the number of
speed bands holding its speed, provided its direction class is one of the
list of classes. -/
theorem cellHit_count (dc : ℚ → ℚ) (classes : List ℚ) (x : WObs)
    (hmem : dc x.wd ∈ classes) (hnd : classes.Nodup) :
    (cellsOf classes).countP (fun cb =>
      decide (dc x.wd = cb.1) && inBucket x.ws cb.2) =
    speedRanges.countP (inBucket x.ws) := by
  unfold cellsOf
  rw [countP_flatMap]
  have hinner : ∀ c ∈ classes,
      (speedRanges.map (fun b => (c, b))).countP (fun cb =>
        decide (dc x.wd = cb.1) && inBucket x.ws cb.2) =
      if dc x.wd = c then speedRanges.countP (inBucket x.ws) else 0 := by
    intro c _
    rw [List.countP_map]
    by_cases hc : dc x.wd = c
    · rw [if_pos hc]
      apply List.countP_congr
      intro b _
      show (decide (dc x.wd = c) && inBucket x.ws b) = true ↔ _
      rw [decide_eq_true hc, Bool.true_and]
    · rw [if_neg hc]
      rw [List.countP_eq_zero]
      intro b _
      show ¬(decide (dc x.wd = c) && inBucket x.ws b) = true
      rw [decide_eq_false hc, Bool.false_and]
      exact Bool.false_ne_true
  rw [List.map_congr_left hinner]
  exact sum_map_ite_eq classes (dc x.wd) _ hnd hmem

theorem sum_map_cast_mul {β : Type} (l : List β) (g : β → ℕ) (k : ℚ) :
    (l.map (fun a => (g a : ℚ) * k)).sum = (((l.map g).sum : ℕ) : ℚ) * k := by
  induction l with
  | nil => simp
  | cons a t ih =>
    rw [List.map_cons, List.sum_cons, List.map_cons, List.sum_cons, ih]
    push_cast
    ring

/-- The counts of one resolution partition the chunk when every speed hits
exactly one band. -/
theorem chunk_count_sum (dc : ℚ → ℚ) (classes : List ℚ) (co : Bool)
    (st : List WObs) (hmem : ∀ x ∈ st, dc x.wd ∈ classes)
    (hnd : classes.Nodup)
    (hb : ∀ x ∈ st, speedRanges.countP (inBucket x.ws) = 1) :
    ((chunkRes dc classes co st).map RoseRow.count).sum = st.length := by
  rw [chunkRes_count]
  exact countP_partition st (cellsOf classes)
    (fun x cb => decide (dc x.wd = cb.1) && inBucket x.ws cb.2)
    (fun x hx => by rw [cellHit_count dc classes x (hmem x hx) hnd]; exact hb x hx)

/-- The rounded frequencies of one resolution sum to 100 up to one half of
a hundredth per emitted cell. -/
theorem chunk_freq_sum (dc : ℚ → ℚ) (classes : List ℚ) (co : Bool)
    (st : List WObs) (hmem : ∀ x ∈ st, dc x.wd ∈ classes)
    (hnd : classes.Nodup)
    (hb : ∀ x ∈ st, speedRanges.countP (inBucket x.ws) = 1)
    (hne : st ≠ []) :
    |((chunkRes dc classes co st).map RoseRow.freq).sum - 100| ≤
      ((cellsOf classes).length : ℚ) / 200 := by
  have hlen : 0 < st.length := List.length_pos.mpr hne
  have hlenq : ((st.length : ℕ) : ℚ) ≠ 0 := by
    exact_mod_cast Nat.pos_iff_ne_zero.mp hlen
  rw [chunkRes_freq]
  have hifeq : (cellsOf classes).map (fun cb =>
      if 0 < st.length then
        rnd2 (((st.countP (fun x =>
          decide (dc x.wd = cb.1) && inBucket x.ws cb.2)) : ℚ) /
          (st.length : ℚ) * 100)
      else 0) =
      (cellsOf classes).map (fun cb =>
        rnd2 (((st.countP (fun x =>
          decide (dc x.wd = cb.1) && inBucket x.ws cb.2)) : ℚ) /
          (st.length : ℚ) * 100)) :=
    List.map_congr_left (fun cb _ => if_pos hlen)
  rw [hifeq]
  have hcomp : (cellsOf classes).map (fun cb =>
      rnd2 (((st.countP (fun x =>
        decide (dc x.wd = cb.1) && inBucket x.ws cb.2)) : ℚ) /
        (st.length : ℚ) * 100)) =
      ((cellsOf classes).map (fun cb =>
        ((st.countP (fun x =>
          decide (dc x.wd = cb.1) && inBucket x.ws cb.2)) : ℚ) /
          (st.length : ℚ) * 100)).map rnd2 := by
    rw [List.map_map]
    rfl
  rw [hcomp]
  have hsum : ((cellsOf classes).map (fun cb =>
      ((st.countP (fun x =>
        decide (dc x.wd = cb.1) && inBucket x.ws cb.2)) : ℚ) /
        (st.length : ℚ) * 100)).sum = 100 := by
    have hform : (cellsOf classes).map (fun cb =>
        ((st.countP (fun x =>
          decide (dc x.wd = cb.1) && inBucket x.ws cb.2)) : ℚ) /
          (st.length : ℚ) * 100) =
        (cellsOf classes).map (fun cb =>
          ((st.countP (fun x =>
            decide (dc x.wd = cb.1) && inBucket x.ws cb.2)) : ℚ) *
            (100 / (st.length : ℚ))) :=
      List.map_congr_left (fun cb _ => by ring)
    rw [hform, sum_map_cast_mul, countP_partition st (cellsOf classes)
      (fun x cb => decide (dc x.wd = cb.1) && inBucket x.ws cb.2)
      (fun x hx => by
        rw [cellHit_count dc classes x (hmem x hx) hnd]; exact hb x hx)]
    field_simp
  have herr := rnd2_sum_err ((cellsOf classes).map (fun cb =>
    ((st.countP (fun x =>
      decide (dc x.wd = cb.1) && inBucket x.ws cb.2)) : ℚ) /
      (st.length : ℚ) * 100))
  rw [hsum, List.length_map] at herr
  exact herr

theorem rnd_intCast (m : ℤ) : rnd ((m : ℚ)) = m := by
  unfold rnd
  rw [Int.floor_intCast, if_pos]
  rw [sub_self]
  norm_num

theorem rnd2_nat100 (n : ℕ) : rnd2 ((n : ℚ) * 100) = (n : ℚ) * 100 := by
  unfold rnd2
  rw [show ((n : ℚ) * 100) * 100 = (((n * 10000 : ℕ) : ℤ) : ℚ) from by
    push_cast; ring]
  rw [rnd_intCast]
  push_cast
  ring

/-- C2 amended: for a nonempty chunk in which no observation speed sits on
a band boundary (6, 10, 14, 18 or 22) and all speeds lie inside the band
structure, the cell counts of each binning resolution sum exactly to the
chunk size, so the exact frequencies sum to exactly 100; the rounded
frequencies sum to 100 within half a hundredth per emitted cell, 1.08 for
the fine resolution (216 cells) and 0.24 for the coarse one (48 cells),
rather than the claimed 0.1. -/
theorem c2_rose_partition (station : List WObs) (hne : station ≠ [])
    (hws : ∀ r ∈ station, 1/1000 ≤ r.ws ∧ r.ws ≤ 1000 ∧ r.ws ≠ 6 ∧
      r.ws ≠ 10 ∧ r.ws ≠ 14 ∧ r.ws ≠ 18 ∧ r.ws ≠ 22) :
    (((chunkRes dirClassFine fineClasses false station).map RoseRow.count).sum
        = station.length ∧
      |((chunkRes dirClassFine fineClasses false station).map
        RoseRow.freq).sum - 100| ≤ 27/25) ∧
    (((chunkRes dirClassCoarse coarseClasses true station).map
        RoseRow.count).sum = station.length ∧
      |((chunkRes dirClassCoarse coarseClasses true station).map
        RoseRow.freq).sum - 100| ≤ 6/25) := by
  have hb : ∀ x ∈ station, speedRanges.countP (inBucket x.ws) = 1 := by
    intro x hx
    rcases hws x hx with ⟨h1, h2, h3, h4, h5, h6, h7⟩
    exact bucket_unique x.ws h1 h2 h3 h4 h5 h6 h7
  have hlf : (cellsOf fineClasses).length = 216 := by
    rw [cellsOf_length]
    simp [fineClasses]
  have hlc : (cellsOf coarseClasses).length = 48 := by
    rw [cellsOf_length]
    simp [coarseClasses]
  constructor
  · constructor
    · exact chunk_count_sum dirClassFine fineClasses false station
        (fun x _ => dirClassFine_mem x.wd) fineClasses_nodup hb
    · have h := chunk_freq_sum dirClassFine fineClasses false station
        (fun x _ => dirClassFine_mem x.wd) fineClasses_nodup hb hne
      rw [hlf] at h
      calc |((chunkRes dirClassFine fineClasses false station).map
            RoseRow.freq).sum - 100| ≤ ((216 : ℕ) : ℚ) / 200 := h
        _ = 27/25 := by norm_num
  · constructor
    · exact chunk_count_sum dirClassCoarse coarseClasses true station
        (fun x _ => dirClassCoarse_mem x.wd) coarseClasses_nodup hb
    · have h := chunk_freq_sum dirClassCoarse coarseClasses true station
        (fun x _ => dirClassCoarse_mem x.wd) coarseClasses_nodup hb hne
      rw [hlc] at h
      calc |((chunkRes dirClassCoarse coarseClasses true station).map
            RoseRow.freq).sum - 100| ≤ ((48 : ℕ) : ℚ) / 200 := h
        _ = 6/25 := by norm_num

/-- C2 counterexample: a chunk holding a single observation with speed
exactly 6 (a shared boundary of the 0-6 and 6-10 bands, both inclusive) is
counted in both bands, so the fine resolution frequencies sum to 200, not
100 within 0.1. -/
theorem c2_rose_counterexample :
    ¬ (|((chunkRes dirClassFine fineClasses false
        [⟨1, 6, 90, "none", 0⟩]).map RoseRow.freq).sum - 100| ≤ 1/10) := by
  have hdc : dirClassFine 90 = 9 := by
    unfold dirClassFine
    rw [if_pos (by norm_num)]
    rw [show ⌈((90:ℚ) - 5) / 10⌉ = 9 from by norm_num [Int.ceil_eq_iff]]
    norm_num
  have hsum : ((chunkRes dirClassFine fineClasses false
      [⟨1, 6, 90, "none", 0⟩]).map RoseRow.freq).sum = 200 := by
    rw [chunkRes_freq]
    have hpt : ∀ cb ∈ cellsOf fineClasses,
        (if 0 < ([⟨1, 6, 90, "none", 0⟩] : List WObs).length then
          rnd2 (((([⟨1, 6, 90, "none", 0⟩] : List WObs).countP (fun x =>
            decide (dirClassFine x.wd = cb.1) && inBucket x.ws cb.2)) : ℚ) /
            (([⟨1, 6, 90, "none", 0⟩] : List WObs).length : ℚ) * 100)
        else 0) =
        ((([⟨1, 6, 90, "none", 0⟩] : List WObs).countP (fun x =>
          decide (dirClassFine x.wd = cb.1) && inBucket x.ws cb.2)) : ℚ) * 100 := by
      intro cb _
      rw [if_pos (by norm_num)]
      rw [show (([⟨1, 6, 90, "none", 0⟩] : List WObs).length : ℚ) = 1 from by
        norm_num]
      rw [div_one, rnd2_nat100]
    rw [List.map_congr_left hpt, sum_map_cast_mul]
    have hhit : ((cellsOf fineClasses).map (fun cb =>
        ([⟨1, 6, 90, "none", 0⟩] : List WObs).countP (fun x =>
          decide (dirClassFine x.wd = cb.1) && inBucket x.ws cb.2))).sum = 2 := by
      have hpt2 : ∀ cb ∈ cellsOf fineClasses,
          ([⟨1, 6, 90, "none", 0⟩] : List WObs).countP (fun x =>
            decide (dirClassFine x.wd = cb.1) && inBucket x.ws cb.2) =
          if (decide (dirClassFine (90:ℚ) = cb.1) && inBucket 6 cb.2) then 1
          else 0 := by
        intro cb _
        rw [List.countP_cons, List.countP_nil]
        simp
      rw [List.map_congr_left hpt2, sum_map_ite_countP]
      have := cellHit_count dirClassFine fineClasses ⟨1, 6, 90, "none", 0⟩
        (dirClassFine_mem 90) fineClasses_nodup
      rw [this]
      have e1 : inBucket 6 ("0-6", 1/1000, 6) = true :=
        decide_eq_true (by norm_num)
      have e2 : inBucket 6 ("6-10", 6, 10) = true :=
        decide_eq_true (by norm_num)
      have e3 : inBucket 6 ("10-14", 10, 14) = false :=
        decide_eq_false (by norm_num [inBucket])
      have e4 : inBucket 6 ("14-18", 14, 18) = false :=
        decide_eq_false (by norm_num [inBucket])
      have e5 : inBucket 6 ("18-22", 18, 22) = false :=
        decide_eq_false (by norm_num [inBucket])
      have e6 : inBucket 6 ("22+", 22, 1000) = false :=
        decide_eq_false (by norm_num [inBucket])
      simp only [speedRanges, List.countP_cons, List.countP_nil, e1, e2, e3,
        e4, e5, e6]; simp
    rw [hhit]
    norm_num
  rw [hsum]
  norm_num

/-- C2 witness: a single observation with speed three and direction ninety
partitions cleanly: each resolution counts it once and the frequency sums
stay within the accumulated rounding tolerance of 100. -/
theorem c2_rose_partition_witness :
    (((chunkRes dirClassFine fineClasses false
        [⟨1, 3, 90, "none", 0⟩]).map RoseRow.count).sum
        = ([⟨1, 3, 90, "none", 0⟩] : List WObs).length ∧
      |((chunkRes dirClassFine fineClasses false
        [⟨1, 3, 90, "none", 0⟩]).map RoseRow.freq).sum - 100| ≤ 27/25) ∧
    (((chunkRes dirClassCoarse coarseClasses true
        [⟨1, 3, 90, "none", 0⟩]).map RoseRow.count).sum
        = ([⟨1, 3, 90, "none", 0⟩] : List WObs).length ∧
      |((chunkRes dirClassCoarse coarseClasses true
        [⟨1, 3, 90, "none", 0⟩]).map RoseRow.freq).sum - 100| ≤ 6/25) :=
  c2_rose_partition [⟨1, 3, 90, "none", 0⟩] (by simp)
    (by
      intro r hr
      rw [List.mem_singleton] at hr
      subst hr
      norm_num)

end WindTool
